import Mathlib

/-!
Verification of the diff package (Myers shortest edit script and unified
diff rendering). The definitions below are a shallow embedding of the Go
source in diff.go: `Lines` and `shortestEdit` embed the SES engine, and
`uwStep`/`uwFlush`/`WriteUnified` embed the unified writer
(`unifiedWriter.write`, `writeHunk`, `writeHunkHeader`, `writeEdit`,
`writeLine`). Machine integers are embedded as `Int` (Go `int`), and the
frontier array `v` (indexed in Go by `k + maxD`) is embedded as a total
function from the diagonal `k` to the stored x coordinate; the Go program
only ever reads indexes `k - 1 + maxD` and `k + 1 + maxD` that are in
range for the flat array, so the re-indexing by `k` is faithful.
-/

set_option maxHeartbeats 1000000

namespace Diff

/-- Operation type of an edit, mirroring the Go `OpType` enum
(`Ins`, `Del`, `Eq`). -/
inductive OpType where
  | ins
  | del
  | eq
deriving DecidableEq, Repr

/-- Display glyph of an operation, mirroring `OpType.String`. -/
def OpType.string : OpType → String
  | .ins => "+"
  | .del => "-"
  | .eq => " "

/-- One edit operation, mirroring the Go `Edit` struct. `oldLine` is
meaningful for `del` and `eq`, `newLine` for `ins` and `eq`; the Go zero
value of an unset field is the empty string. -/
structure Edit where
  op : OpType
  oldLine : String
  newLine : String
deriving DecidableEq, Repr

instance : Inhabited Edit := ⟨⟨.eq, "", ""⟩⟩

/-! ## SES engine: shortestEdit -/

/-- The frontier array of the Go code, indexed by diagonal `k` instead of
the flat index `k + maxD`. -/
def VArr := Int → Nat

/-- Initial frontier: the Go `make([]int, 2*maxD+1)` is all zeroes. -/
def vInit : VArr := fun _ => 0

/-- Frontier update `v[i] = x` at diagonal `k`. -/
def vUpd (v : VArr) (k : Int) (x : Nat) : VArr :=
  fun j => if j = k then x else v j

/-- Forward snake: `for x < n && y < m && a[x] == b[y] { x++; y++ }`.
The coordinate `y` is the Go `int` value `x - k`; the `0 ≤ y` conjunct
makes list indexing total (on every path the program reaches, `y` is
nonnegative, so the conjunct never changes the result). -/
def snake (a b : List String) (x : Nat) (y : Int) : Nat × Int :=
  if h : x < a.length ∧ y < (b.length : Int) ∧ 0 ≤ y ∧
      a.getD x "" = b.getD y.toNat "" then
    snake a b (x + 1) (y + 1)
  else
    (x, y)
termination_by a.length - x
decreasing_by omega

/-- The tie break of the Go code,
`k == -d || (k != d && v[i-1] < v[i+1])`: true selects the down move
(insert), false the right move (delete). -/
def fwdDown (v : VArr) (d k : Int) : Prop :=
  k = -d ∨ (k ≠ d ∧ v (k - 1) < v (k + 1))

instance (v : VArr) (d k : Int) : Decidable (fwdDown v d k) := by
  unfold fwdDown; infer_instance

/-- The pre-snake x coordinate chosen at depth `d`, diagonal `k`:
`x = v[i+1]` for a down move, `x = v[i-1] + 1` for a right move. -/
def stepX (v : VArr) (d k : Int) : Nat :=
  if fwdDown v d k then v (k + 1) else v (k - 1) + 1

/-- The post-snake point computed by one body of the inner `k` loop. -/
def fpoint (a b : List String) (v : VArr) (d k : Int) : Nat × Int :=
  snake a b (stepX v d k) ((stepX v d k : Int) - k)

/-- Whether the inner loop skips diagonal `k`
(`if k > n || k < -m { continue }`). -/
def kSkip (a b : List String) (k : Int) : Prop :=
  k > (a.length : Int) ∨ k < -(b.length : Int)

instance (a b : List String) (k : Int) : Decidable (kSkip a b k) := by
  unfold kSkip; infer_instance

/-- Whether the store at depth `d`, diagonal `k` triggers the early
return (`if x >= n && y >= m { return trace }`). -/
def kHit (a b : List String) (v : VArr) (d k : Int) : Prop :=
  (a.length : Int) ≤ ((fpoint a b v d k).1 : Int) ∧
    (b.length : Int) ≤ (fpoint a b v d k).2

instance (a b : List String) (v : VArr) (d k : Int) : Decidable (kHit a b v d k) := by
  unfold kHit; infer_instance

/-- The diagonals visited by `for k := -d; k <= d; k = k + 2`. -/
def kRange (d : Nat) : List Int :=
  (List.range (d + 1)).map (fun j : Nat => -(d : Int) + 2 * (j : Int))

/-- The inner `k` loop of `shortestEdit`: processes the diagonals in
order, skipping out of bounds ones, updating `v`, and returning early
(second component `true`) when the store reaches `(n, m)`. -/
def kLoop (a b : List String) (d : Int) : List Int → VArr → VArr × Bool
  | [], v => (v, false)
  | k :: ks, v =>
    if kSkip a b k then
      kLoop a b d ks v
    else
      let v' := vUpd v k (fpoint a b v d k).1
      if kHit a b v d k then (v', true) else kLoop a b d ks v'

/-- The outer `d` loop of `shortestEdit`: appends a snapshot of `v` to
the trace before each iteration and stops on the early return or after
`d = maxD`. -/
def sesLoop (a b : List String) (d : Nat) (v : VArr) : List VArr :=
  if a.length + b.length < d then
    []
  else
    let r := kLoop a b d (kRange d) v
    v :: (if r.2 then [] else sesLoop a b (d + 1) r.1)
termination_by a.length + b.length + 1 - d
decreasing_by omega

/-- The trace of frontier snapshots, mirroring `shortestEdit`. -/
def shortestEdit (a b : List String) : List VArr :=
  if a.length + b.length = 0 then [] else sesLoop a b 0 vInit

/-! ## SES engine: Lines (backward reconstruction) -/

/-- Backward snake of the reconstruction loop:
`for x > prevX && y > prevY` emit an `eq` edit and decrement both
coordinates. Edits are appended at the end of `acc` exactly as the Go
code appends to `edits`. -/
def backSnake (a b : List String) (prevX prevY : Int) (x y : Int)
    (acc : List Edit) : Int × Int × List Edit :=
  if h : prevX < x ∧ prevY < y then
    backSnake a b prevX prevY (x - 1) (y - 1)
      (acc ++ [⟨.eq, a.getD (x - 1).toNat "", b.getD (y - 1).toNat ""⟩])
  else
    (x, y, acc)
termination_by (x - prevX).toNat
decreasing_by omega

/-- The backward `d` loop of `Lines`, processing the trace from its last
snapshot to its first; the head of the remaining list is `trace[d]`
where `d` is the length of the tail. -/
def backLoop (a b : List String) : List VArr → Int → Int → List Edit → List Edit
  | [], _, _, acc => acc
  | v :: rest, x, y, acc =>
    let d : Int := (rest.length : Int)
    let k := x - y
    let prevK := if fwdDown v d k then k + 1 else k - 1
    let prevX : Int := (v prevK : Int)
    let prevY := prevX - prevK
    let r := backSnake a b prevX prevY x y acc
    let acc' :=
      if 0 < d then
        r.2.2 ++
          [if fwdDown v d k then ⟨.ins, "", b.getD (r.2.1 - 1).toNat ""⟩
           else ⟨.del, a.getD (r.1 - 1).toNat "", ""⟩]
      else r.2.2
    backLoop a b rest prevX prevY acc'

/-- The shortest edit script from `a` to `b`, mirroring `Lines`. -/
def Lines (a b : List String) : List Edit :=
  if a.length + b.length = 0 then []
  else
    (backLoop a b (shortestEdit a b).reverse (a.length : Int) (b.length : Int) []).reverse

/-! ## Unified writer -/

/-- A hunk as written by `writeHunk`: the header fields and the covered
index range `[hunkStart, endIdx)` into the edit list. -/
structure Hunk where
  startOld : Int
  countOld : Int
  startNew : Int
  countNew : Int
  hunkStart : Int
  endIdx : Int
deriving DecidableEq, Repr

/-- The mutable fields of the Go `unifiedWriter`, plus the list of hunks
written so far (the Go code streams each hunk to the writer at the point
this embedding appends it to `hunks`; the rendered bytes are identical
because hunks are written whole, in order). -/
structure UWState where
  eqCount : Int
  lineOld : Int
  lineNew : Int
  hunkStart : Int
  hunkEnd : Int
  startOld : Int
  startNew : Int
  countOld : Int
  countNew : Int
  hunks : List Hunk
deriving Repr

/-- Initial writer state (`hunkStart: -1, hunkEnd: -1`, rest zero). -/
def uwInit : UWState :=
  ⟨0, 0, 0, -1, -1, 0, 0, 0, 0, []⟩

/-- One iteration of the `for i` loop body of `unifiedWriter.write` on
the edit at index `i`. -/
def uwStep (context : Int) (i : Nat) (e : Edit) (st : UWState) : UWState :=
  match e.op with
  | .eq =>
    let st := { st with lineNew := st.lineNew + 1, lineOld := st.lineOld + 1 }
    if st.hunkStart ≥ 0 then
      let st := { st with hunkEnd := (i : Int) }
      let st : UWState :=
        if context > 0 then
          if st.startOld = 0 then { st with startOld := st.lineOld }
          else if st.startNew = 0 then { st with startNew := st.lineNew }
          else st
        else
          if st.startOld = 0 then { st with startOld := st.lineOld - 1 }
          else if st.startNew = 0 then { st with startNew := st.lineNew - 1 }
          else st
      if st.eqCount + 1 > 2 * context then
        let st : UWState :=
          if context > 0 ∧ st.eqCount > context then
            { st with countOld := st.countOld - (st.eqCount - context),
                      countNew := st.countNew - (st.eqCount - context),
                      hunkEnd := st.hunkEnd - (st.eqCount - context) }
          else st
        { st with
          hunks := st.hunks ++
            [⟨st.startOld, st.countOld, st.startNew, st.countNew, st.hunkStart, st.hunkEnd⟩],
          hunkStart := -1, hunkEnd := -1, startNew := 0, startOld := 0,
          eqCount := 0, countNew := 0, countOld := 0 }
      else
        { st with eqCount := st.eqCount + 1, countNew := st.countNew + 1,
                  countOld := st.countOld + 1 }
    else st
  | .ins =>
    let st := { st with lineNew := st.lineNew + 1, countNew := st.countNew + 1,
                        eqCount := 0, hunkEnd := (i : Int) }
    if st.hunkStart < 0 then
      let hs := max 0 ((i : Int) - context)
      let ctx := (i : Int) - hs
      let st := { st with hunkStart := hs, countOld := st.countOld + ctx,
                          countNew := st.countNew + ctx }
      let st := if ctx > 0 then { st with startOld := st.lineOld } else st
      { st with startNew := st.lineNew - ctx }
    else
      if st.startNew = 0 then { st with startNew := st.lineNew } else st
  | .del =>
    let st := { st with lineOld := st.lineOld + 1, countOld := st.countOld + 1,
                        eqCount := 0, hunkEnd := (i : Int) }
    if st.hunkStart < 0 then
      let hs := max 0 ((i : Int) - context)
      let ctx := (i : Int) - hs
      let st := { st with hunkStart := hs, countOld := st.countOld + ctx,
                          countNew := st.countNew + ctx }
      let st := if ctx > 0 then { st with startNew := st.lineNew } else st
      { st with startOld := st.lineOld - ctx }
    else
      if st.startOld = 0 then { st with startOld := st.lineOld } else st

/-- The `for i := 0; i < len(uw.edits); i++` loop of
`unifiedWriter.write`, carrying the index of the head edit. -/
def uwLoop (context : Int) : List Edit → Nat → UWState → UWState
  | [], _, st => st
  | e :: rest, i, st => uwLoop context rest (i + 1) (uwStep context i e st)

/-- The flush of the remaining hunk after the loop
(`if uw.hunkStart >= 0 { ... writeHunk(uw.hunkEnd + 1) }`). -/
def uwFlush (context : Int) (st : UWState) : List Hunk :=
  if st.hunkStart ≥ 0 then
    let st : UWState :=
      if st.startOld = 0 then { st with startOld := st.lineOld }
      else if st.startNew = 0 then { st with startNew := st.lineNew }
      else st
    let st : UWState :=
      if context > 0 ∧ st.eqCount > context then
        { st with countOld := st.countOld - (st.eqCount - context),
                  countNew := st.countNew - (st.eqCount - context),
                  hunkEnd := st.hunkEnd - (st.eqCount - context) }
      else st
    st.hunks ++
      [⟨st.startOld, st.countOld, st.startNew, st.countNew, st.hunkStart, st.hunkEnd + 1⟩]
  else st.hunks

/-- The hunks written by `unifiedWriter.write` for `edits` at the given
context. -/
def uwWrite (edits : List Edit) (context : Int) : List Hunk :=
  uwFlush context (uwLoop context edits 0 uwInit)

/-- Rendering of one line, mirroring `unifiedWriter.writeLine`: a line
that is nonempty and does not end in a newline is followed by the no
newline marker. -/
def writeLine (s : String) : String :=
  s ++ (if 0 < s.length ∧ s.back ≠ '\n' then "\n\\ No newline at end of file\n" else "")

/-- Rendering of one edit, mirroring `unifiedWriter.writeEdit`: the
operation glyph, then the old line for `del` and the new line
otherwise. -/
def writeEdit (e : Edit) : String :=
  e.op.string ++ (if e.op = .del then writeLine e.oldLine else writeLine e.newLine)

/-- The hunk header, mirroring `writeHunkHeader`: a count of exactly 1
is omitted. -/
def writeHunkHeader (oldStart oldCount newStart newCount : Int) : String :=
  if oldCount ≠ 1 ∧ newCount ≠ 1 then
    "@@ -" ++ toString oldStart ++ "," ++ toString oldCount ++
      " +" ++ toString newStart ++ "," ++ toString newCount ++ " @@\n"
  else if oldCount = 1 ∧ newCount = 1 then
    "@@ -" ++ toString oldStart ++ " +" ++ toString newStart ++ " @@\n"
  else if oldCount = 1 then
    "@@ -" ++ toString oldStart ++ " +" ++ toString newStart ++ "," ++
      toString newCount ++ " @@\n"
  else
    "@@ -" ++ toString oldStart ++ "," ++ toString oldCount ++ " +" ++
      toString newStart ++ " @@\n"

/-- Rendering of one hunk, mirroring `writeHunk`: the header, then every
covered edit (`for j := hunkStart; j < end; j++`). -/
def renderHunk (edits : List Edit) (h : Hunk) : String :=
  writeHunkHeader h.startOld h.countOld h.startNew h.countNew ++
    String.join (((edits.drop h.hunkStart.toNat).take (h.endIdx - h.hunkStart).toNat).map writeEdit)

/-- The unified diff output, mirroring `WriteUnified` (the output sink
never fails in this embedding, so the returned bytes are the whole
observable behavior). -/
def WriteUnified (edits : List Edit) (context : Int) : String :=
  String.join ((uwWrite edits context).map (renderHunk edits))

/-- Configuration of the option based entry point (the `config` struct
of the variant source file with functional options). -/
structure Config where
  context : Int
  gutter : Bool

/-- The `WithContext` option of the option based entry point. The Go
function panics when `lines` is negative, embedded as `none`; otherwise
it returns the option function that sets the context. -/
def WithContext (lines : Int) : Option (Config → Config) :=
  if lines < 0 then none
  else some (fun conf => { conf with context := lines })

/-- The line text an edit renders in unified output: the old line for a
delete, the new line otherwise (the selection made by `writeEdit`). -/
def editLine (e : Edit) : String :=
  if e.op = .del then e.oldLine else e.newLine

/-- Whether an edit is a change (an insert or a delete). -/
def isChange (e : Edit) : Bool := decide (e.op ≠ OpType.eq)

/-- One step of the specification-side clustering of change indexes: a
change joins the open cluster when at most `2 * context` equal edits
separate it from the last change of that cluster, and otherwise closes
that cluster and opens a new one; equal edits leave the state unchanged.
The state is the list of closed clusters and the open cluster, each as a
(first, last) pair of change indexes. -/
def cStep (c : Int) (i : Nat) (e : Edit)
    (s : List (Nat × Nat) × Option (Nat × Nat)) :
    List (Nat × Nat) × Option (Nat × Nat) :=
  if isChange e then
    match s.2 with
    | none => (s.1, some (i, i))
    | some (f, l) =>
      if (i : Int) - l - 1 ≤ 2 * c then (s.1, some (f, i))
      else (s.1 ++ [(f, l)], some (i, i))
  else s

/-- The clustering fold over an edit list, carrying the index of the
head edit. -/
def cLoop (c : Int) : List Edit → Nat → (List (Nat × Nat) × Option (Nat × Nat)) →
    List (Nat × Nat) × Option (Nat × Nat)
  | [], _, s => s
  | e :: rest, i, s => cLoop c rest (i + 1) (cStep c i e s)

/-- The clusters of change indexes of an edit list: maximal groups of
changes in which consecutive changes are separated by at most
`2 * context` equal edits. -/
def clusters (edits : List Edit) (c : Int) : List (Nat × Nat) :=
  (cLoop c edits 0 ([], none)).1 ++ (cLoop c edits 0 ([], none)).2.toList

/-- The edit index range a cluster is rendered with: the cluster padded
by `context` edits on each side, clamped to the edit list. -/
def clusterRange (L : Nat) (c : Int) (g : Nat × Nat) : Int × Int :=
  (max 0 ((g.1 : Int) - c), min (L : Int) ((g.2 : Int) + c + 1))

/-- The index ranges of the hunks written by the unified writer. -/
def hunkRanges (edits : List Edit) (c : Int) : List (Int × Int) :=
  (uwWrite edits c).map (fun h => (h.hunkStart, h.endIdx))

/-- The index ranges of a list of hunks. -/
def rangesOf (hs : List Hunk) : List (Int × Int) :=
  hs.map (fun x => (x.hunkStart, x.endIdx))

/-- The unclamped rendered range of a cluster. -/
def rangeU (c : Int) (g : Nat × Nat) : Int × Int :=
  (max 0 ((g.1 : Int) - c), (g.2 : Int) + c + 1)

/-- Loop invariant tying the writer state after a prefix of length `i`
to the clustering state of that prefix: with no change seen the writer
is idle; with an open cluster `(f, l)` the writer has an open hunk and
matching counters while at most `2 * context` equal edits follow the
last change, and otherwise it has already emitted the cluster. -/
def WInv (c : Int) (i : Nat) :
    List (Nat × Nat) × Option (Nat × Nat) → UWState → Prop
  | (gs, none), st =>
      gs = [] ∧ st.hunkStart = -1 ∧ st.eqCount = 0 ∧ st.hunks = []
  | (gs, some (f, l)), st =>
      f ≤ l ∧ l < i ∧ (∀ g ∈ gs, g.1 ≤ g.2 ∧ (g.2 : Int) + c + 1 ≤ (i : Int)) ∧
      (((i : Int) - 1 - l ≤ 2 * c ∧
          st.hunkStart = max 0 ((f : Int) - c) ∧
          st.hunkEnd = (i : Int) - 1 ∧
          st.eqCount = (i : Int) - 1 - l ∧
          rangesOf st.hunks = gs.map (rangeU c)) ∨
        (2 * c < (i : Int) - 1 - l ∧
          st.hunkStart = -1 ∧ st.eqCount = 0 ∧
          rangesOf st.hunks = (gs ++ [(f, l)]).map (rangeU c)))


/-- Relation between the clustering states of the same prefix at two
context values: the open clusters end at the same change, the coarser
open cluster starts no later, and every fine closed cluster is contained
in a coarse closed cluster or in the coarse open cluster. -/
def CRel : (List (Nat × Nat) × Option (Nat × Nat)) →
    (List (Nat × Nat) × Option (Nat × Nat)) → Prop
  | (gs1, none), s2 => gs1 = [] ∧ s2.1 = [] ∧ s2.2 = none
  | (gs1, some (f1, l1)), s2 =>
      ∃ f2, s2.2 = some (f2, l1) ∧ f2 ≤ f1 ∧ f1 ≤ l1 ∧ (∀ g1 ∈ gs1, g1.2 ≤ l1) ∧
        (∀ g1 ∈ gs1, (∃ g2 ∈ s2.1, g2.1 ≤ g1.1 ∧ g1.2 ≤ g2.2) ∨ (f2 ≤ g1.1 ∧ g1.2 ≤ l1))

/-- The open cluster of a clustering state ends before the given
index. -/
def lastUnder : (List (Nat × Nat) × Option (Nat × Nat)) → Nat → Prop
  | (_, none), _ => True
  | (_, some (_, l)), i => l < i

/-- Parallel reformulation of one pass of the inner loop: at depth `d`
every in range, in bounds diagonal of the right parity is updated from
the previous snapshot (the sequential loop reads only diagonals of the
opposite parity, which it never writes in the same pass, so both agree;
proved below). -/
def vIter (a b : List String) : Nat → VArr
  | 0 => vInit
  | d + 1 => fun k =>
    if ¬ kSkip a b k ∧ k ∈ kRange d then (fpoint a b (vIter a b d) d k).1
    else vIter a b d k

/-- The early return fires at depth `d`: some processed diagonal reaches
the bottom right corner. -/
def sesDone (a b : List String) (d : Nat) : Prop :=
  ∃ k ∈ kRange d, ¬ kSkip a b k ∧ kHit a b (vIter a b d) d k

instance (a b : List String) (d : Nat) : Decidable (sesDone a b d) := by
  unfold sesDone; infer_instance

/-- Reachability inside the edit grid: `Reach a b x y d` holds when the
point `(x, y)` is reachable from `(0, 0)` by `d` single element inserts
(down moves) or deletes (right moves) plus any number of diagonal moves
across equal elements, staying inside the grid. -/
inductive Reach (a b : List String) : Nat → Nat → Nat → Prop where
  | init : Reach a b 0 0 0
  | diag {x y d} : Reach a b x y d → x < a.length → y < b.length →
      a.getD x "" = b.getD y "" → Reach a b (x + 1) (y + 1) d
  | down {x y d} : Reach a b x y d → y < b.length → Reach a b x (y + 1) (d + 1)
  | right {x y d} : Reach a b x y d → x < a.length → Reach a b (x + 1) y (d + 1)

/-- Reachability on the extended grid: down and right moves may leave
the grid (the loop under study stores such overshooting frontier values;
they are sound for this relaxed relation). -/
inductive ReachX (a b : List String) : Nat → Nat → Nat → Prop where
  | init : ReachX a b 0 0 0
  | diag {x y d} : ReachX a b x y d → x < a.length → y < b.length →
      a.getD x "" = b.getD y "" → ReachX a b (x + 1) (y + 1) d
  | down {x y d} : ReachX a b x y d → ReachX a b x (y + 1) (d + 1)
  | right {x y d} : ReachX a b x y d → ReachX a b (x + 1) y (d + 1)

/-! ## SES engine: the sequential loop equals the parallel iteration -/

/-- Bounded linear search used to name the first done depth. -/
def findDone (a b : List String) : Nat → Nat → Nat
  | 0, d => d
  | fuel + 1, d => if sesDone a b d then d else findDone a b fuel (d + 1)

/-- The first depth at which the early return fires. -/
def sesD (a b : List String) : Nat := findDone a b (a.length + b.length + 1) 0

/-- The old side lines of a script: `OldLine` of every `del` and `eq`
edit, in order. -/
def oldsOf (es : List Edit) : List String :=
  es.filterMap (fun e => if e.op = OpType.ins then none else some e.oldLine)

/-- The new side lines of a script: `NewLine` of every `ins` and `eq`
edit, in order. -/
def newsOf (es : List Edit) : List String :=
  es.filterMap (fun e => if e.op = OpType.del then none else some e.newLine)

/-- The number of non `eq` edits of a script. -/
def changesOf (es : List Edit) : Nat :=
  (es.filter (fun e => decide (e.op ≠ OpType.eq))).length

/-- The reversed trace walked by the reconstruction loop when the early
return fired at depth `d`. -/
def revTrace (a b : List String) (d : Nat) : List VArr :=
  ((List.range (d + 1)).map (vIter a b)).reverse


end Diff

namespace Diff

/-! ## Unified writer: hunk range characterization -/

theorem uwStep_eq_skip (c : Int) (i : Nat) (e : Edit) (st : UWState)
    (hop : e.op = .eq) (h : st.hunkStart < 0) :
    (uwStep c i e st).hunkStart = st.hunkStart ∧
    (uwStep c i e st).hunkEnd = st.hunkEnd ∧
    (uwStep c i e st).eqCount = st.eqCount ∧
    (uwStep c i e st).hunks = st.hunks := by
  simp [uwStep, hop, not_le.mpr h]

theorem uwStep_eq_ext (c : Int) (i : Nat) (e : Edit) (st : UWState)
    (hop : e.op = .eq) (h : 0 ≤ st.hunkStart) (hq : ¬ st.eqCount + 1 > 2 * c) :
    (uwStep c i e st).hunkStart = st.hunkStart ∧
    (uwStep c i e st).hunkEnd = (i : Int) ∧
    (uwStep c i e st).eqCount = st.eqCount + 1 ∧
    (uwStep c i e st).hunks = st.hunks := by
  by_cases hc : c > 0 <;> by_cases hso : st.startOld = 0 <;> by_cases hsn : st.startNew = 0 <;>
    simp [uwStep, hop, h, hq, hc, hso, hsn]

theorem uwStep_eq_close (c : Int) (i : Nat) (e : Edit) (st : UWState)
    (hop : e.op = .eq) (h : 0 ≤ st.hunkStart) (hq : st.eqCount + 1 > 2 * c) :
    (uwStep c i e st).hunkStart = -1 ∧
    (uwStep c i e st).eqCount = 0 ∧
    (uwStep c i e st).hunks.map (fun x => (x.hunkStart, x.endIdx)) =
      st.hunks.map (fun x => (x.hunkStart, x.endIdx)) ++
        [(st.hunkStart, (i : Int) - (if 0 < c ∧ c < st.eqCount then st.eqCount - c else 0))] := by
  by_cases hc : c > 0 <;> by_cases hso : st.startOld = 0 <;> by_cases hsn : st.startNew = 0 <;>
    by_cases ha : c < st.eqCount <;>
    simp [uwStep, hop, h, hq, hc, hso, hsn, ha]

theorem uwStep_chg_open (c : Int) (i : Nat) (e : Edit) (st : UWState)
    (hop : e.op ≠ .eq) (h : st.hunkStart < 0) :
    (uwStep c i e st).hunkStart = max 0 ((i : Int) - c) ∧
    (uwStep c i e st).hunkEnd = (i : Int) ∧
    (uwStep c i e st).eqCount = 0 ∧
    (uwStep c i e st).hunks = st.hunks := by
  cases hop2 : e.op with
  | eq => exact absurd hop2 hop
  | ins =>
    by_cases hctx : (i : Int) - max 0 ((i : Int) - c) > 0 <;> simp [uwStep, hop2, h, hctx]
  | del =>
    by_cases hctx : (i : Int) - max 0 ((i : Int) - c) > 0 <;> simp [uwStep, hop2, h, hctx]

theorem uwStep_chg_ext (c : Int) (i : Nat) (e : Edit) (st : UWState)
    (hop : e.op ≠ .eq) (h : 0 ≤ st.hunkStart) :
    (uwStep c i e st).hunkStart = st.hunkStart ∧
    (uwStep c i e st).hunkEnd = (i : Int) ∧
    (uwStep c i e st).eqCount = 0 ∧
    (uwStep c i e st).hunks = st.hunks := by
  cases hop2 : e.op with
  | eq => exact absurd hop2 hop
  | ins =>
    by_cases hsn : st.startNew = 0 <;> simp [uwStep, hop2, h, not_lt.mpr h, hsn]
  | del =>
    by_cases hso : st.startOld = 0 <;> simp [uwStep, hop2, h, not_lt.mpr h, hso]

theorem uwFlush_closed (c : Int) (st : UWState) (h : st.hunkStart < 0) :
    uwFlush c st = st.hunks := by
  simp [uwFlush, not_le.mpr h]

theorem uwFlush_open (c : Int) (st : UWState) (h : 0 ≤ st.hunkStart) :
    (uwFlush c st).map (fun x => (x.hunkStart, x.endIdx)) =
      st.hunks.map (fun x => (x.hunkStart, x.endIdx)) ++
        [(st.hunkStart,
          st.hunkEnd + 1 - (if 0 < c ∧ c < st.eqCount then st.eqCount - c else 0))] := by
  by_cases hso : st.startOld = 0 <;> by_cases hsn : st.startNew = 0 <;>
    by_cases hc : c > 0 <;> by_cases ha : c < st.eqCount <;>
    simp [uwFlush, h, hso, hsn, hc, ha] <;> ring


theorem isChange_iff (e : Edit) : isChange e = true ↔ e.op ≠ .eq := by
  simp [isChange]

theorem wInv_step (c : Int) (hc : 0 ≤ c) (i : Nat) (e : Edit)
    (spec : List (Nat × Nat) × Option (Nat × Nat)) (st : UWState)
    (H : WInv c i spec st) :
    WInv c (i + 1) (cStep c i e spec) (uwStep c i e st) := by
  obtain ⟨gs, o⟩ := spec
  by_cases hch : isChange e
  · have hop : e.op ≠ .eq := (isChange_iff e).mp hch
    cases o with
    | none =>
      obtain ⟨hgs, hhs, hec, hhk⟩ := H
      obtain ⟨p1, p2, p3, p4⟩ := uwStep_chg_open c i e st hop (by omega)
      simp only [cStep, hch, if_pos]
      refine ⟨le_refl i, by omega, by simp [hgs], Or.inl ?_⟩
      subst hgs
      simp [p1, p2, p3, p4, hhk, rangesOf]
      omega
    | some fl =>
      obtain ⟨f, l⟩ := fl
      obtain ⟨hfl, hli, hgsb, hbr⟩ := H
      rcases hbr with ⟨hrun, h1, h2, h3, h4⟩ | ⟨hrun, h1, h2, h4⟩
      · -- writer open: the change extends the open hunk and cluster
        have hgap : (i : Int) - l - 1 ≤ 2 * c := by omega
        obtain ⟨p1, p2, p3, p4⟩ := uwStep_chg_ext c i e st hop (by rw [h1]; positivity)
        simp only [cStep, hch, if_pos, if_pos hgap]
        refine ⟨by omega, by omega, fun g hg => ⟨(hgsb g hg).1, by have := (hgsb g hg).2; omega⟩,
          Or.inl ?_⟩
        refine ⟨by push_cast; omega, by rw [p1, h1], by rw [p2]; push_cast; omega,
          by rw [p3]; push_cast; omega, by rw [p4, h4]⟩
      · -- writer closed: the change opens a new hunk and cluster
        have hgap : ¬ ((i : Int) - l - 1 ≤ 2 * c) := by omega
        obtain ⟨p1, p2, p3, p4⟩ := uwStep_chg_open c i e st hop (by omega)
        simp only [cStep, hch, if_pos, if_neg hgap]
        refine ⟨le_refl i, by omega,
          fun g hg => ?_, Or.inl ?_⟩
        · rcases List.mem_append.mp hg with hg | hg
          · exact ⟨(hgsb g hg).1, by have := (hgsb g hg).2; omega⟩
          · simp at hg
            subst hg
            exact ⟨hfl, by omega⟩
        · refine ⟨by push_cast; omega, by rw [p1], by rw [p2]; push_cast; omega,
            by rw [p3]; push_cast; omega, by rw [p4, h4]⟩
  · have hop : e.op = .eq := by
      by_contra hop
      exact hch ((isChange_iff e).mpr hop)
    cases o with
    | none =>
      obtain ⟨hgs, hhs, hec, hhk⟩ := H
      obtain ⟨p1, p2, p3, p4⟩ := uwStep_eq_skip c i e st hop (by omega)
      simp only [cStep, hch, if_neg, Bool.false_eq_true, if_false]
      exact ⟨hgs, by omega, by rw [p3, hec], by rw [p4, hhk]⟩
    | some fl =>
      obtain ⟨f, l⟩ := fl
      obtain ⟨hfl, hli, hgsb, hbr⟩ := H
      have hcs : cStep c i e (gs, some (f, l)) = (gs, some (f, l)) := by
        simp [cStep, hch]
      rw [hcs]
      rcases hbr with ⟨hrun, h1, h2, h3, h4⟩ | ⟨hrun, h1, h2, h4⟩
      · by_cases hq : st.eqCount + 1 > 2 * c
        · -- the equal edit closes the hunk
          obtain ⟨p1, p2, p3⟩ := uwStep_eq_close c i e st hop (by rw [h1]; positivity) hq
          refine ⟨hfl, by omega, fun g hg => ⟨(hgsb g hg).1, by have := (hgsb g hg).2; omega⟩,
            Or.inr ⟨by omega, p1, p2, ?_⟩⟩
          simp only [rangesOf] at h4 ⊢
          rw [p3, h1, h3]
          have hrc : (i : Int) - (if 0 < c ∧ c < (i : Int) - 1 - (l : Int) then (i : Int) - 1 - (l : Int) - c else 0)
              = (l : Int) + c + 1 := by
            split <;> omega
          rw [hrc, h4]
          simp [rangeU]
        · -- the equal edit is absorbed into the open hunk
          obtain ⟨p1, p2, p3, p4⟩ := uwStep_eq_ext c i e st hop (by rw [h1]; positivity) hq
          refine ⟨hfl, by omega, fun g hg => ⟨(hgsb g hg).1, by have := (hgsb g hg).2; omega⟩,
            Or.inl ⟨by omega, by rw [p1, h1], by rw [p2]; push_cast; omega,
              by rw [p3, h3]; push_cast; omega, by rw [p4, h4]⟩⟩
      · -- writer already closed the cluster
        obtain ⟨p1, p2, p3, p4⟩ := uwStep_eq_skip c i e st hop (by omega)
        exact ⟨hfl, by omega, fun g hg => ⟨(hgsb g hg).1, by have := (hgsb g hg).2; omega⟩,
          Or.inr ⟨by omega, by rw [p1, h1], by rw [p3, h2], by rw [p4, h4]⟩⟩


theorem wInv_loop (c : Int) (hc : 0 ≤ c) :
    ∀ (rest : List Edit) (i : Nat) (spec : List (Nat × Nat) × Option (Nat × Nat)) (st : UWState),
    WInv c i spec st →
    WInv c (i + rest.length) (cLoop c rest i spec) (uwLoop c rest i st)
  | [], i, spec, st, H => by simpa [cLoop, uwLoop] using H
  | e :: rest, i, spec, st, H => by
    have := wInv_loop c hc rest (i + 1) (cStep c i e spec) (uwStep c i e st)
      (wInv_step c hc i e spec st H)
    simpa [cLoop, uwLoop, Nat.add_assoc, Nat.add_comm 1 rest.length] using this

theorem map_rangeU_eq (c : Int) (L : Nat) (gs : List (Nat × Nat))
    (hb : ∀ g ∈ gs, (g.2 : Int) + c + 1 ≤ (L : Int)) :
    gs.map (rangeU c) = gs.map (clusterRange L c) := by
  induction gs with
  | nil => rfl
  | cons g gs ih =>
    simp only [List.map_cons]
    rw [ih (fun x hx => hb x (by simp [hx]))]
    have hg := hb g (by simp)
    have : rangeU c g = clusterRange L c g := by
      simp only [rangeU, clusterRange]
      congr 1
      omega
    rw [this]

theorem uwWrite_ranges (edits : List Edit) (c : Int) (hc : 0 ≤ c) :
    hunkRanges edits c = (clusters edits c).map (clusterRange edits.length c) := by
  have H := wInv_loop c hc edits 0 ([], none) uwInit ⟨rfl, rfl, rfl, rfl⟩
  rw [Nat.zero_add] at H
  rw [hunkRanges, uwWrite, clusters]
  rcases hsp : cLoop c edits 0 ([], none) with ⟨gs, o⟩
  rw [hsp] at H
  cases o with
  | none =>
    obtain ⟨hgs, hhs, hec, hhk⟩ := H
    have hfc := uwFlush_closed c (uwLoop c edits 0 uwInit) (by omega)
    rw [hfc, hhk, hgs]
    simp [rangesOf]
  | some fl =>
    obtain ⟨f, l⟩ := fl
    obtain ⟨hfl, hli, hgsb, hbr⟩ := H
    rcases hbr with ⟨hrun, h1, h2, h3, h4⟩ | ⟨hrun, h1, h2, h4⟩
    · have hfo := uwFlush_open c (uwLoop c edits 0 uwInit) (by rw [h1]; positivity)
      simp only [rangesOf] at h4
      simp only [Option.toList_some]
      rw [hfo, h4, h1, h2, h3]
      rw [List.map_append, map_rangeU_eq c edits.length gs (fun g hg => (hgsb g hg).2)]
      congr 1
      simp only [List.map_cons, List.map_nil, clusterRange]
      have hsnd : (edits.length : Int) - 1 + 1 -
          (if 0 < c ∧ c < (edits.length : Int) - 1 - (l : Int)
            then (edits.length : Int) - 1 - (l : Int) - c else 0) =
          min (edits.length : Int) ((l : Int) + c + 1) := by
        split <;> omega
      rw [hsnd]
    · have hfc := uwFlush_closed c (uwLoop c edits 0 uwInit) (by omega)
      simp only [rangesOf] at h4
      simp only [Option.toList_some]
      rw [hfc, h4, map_rangeU_eq c edits.length (gs ++ [(f, l)]) (by
        intro g hg
        rcases List.mem_append.mp hg with hg | hg
        · exact (hgsb g hg).2
        · simp only [List.mem_singleton] at hg
          subst hg
          simp only
          omega)]


theorem cLoop_append (c : Int) (xs ys : List Edit) :
    ∀ (i : Nat) (s : List (Nat × Nat) × Option (Nat × Nat)),
    cLoop c (xs ++ ys) i s = cLoop c ys (i + xs.length) (cLoop c xs i s) := by
  induction xs with
  | nil => intro i s; simp [cLoop]
  | cons e xs ih =>
    intro i s
    simp only [List.cons_append, cLoop, List.length_cons]
    rw [show xs.append ys = xs ++ ys from rfl, ih]
    rw [show i + 1 + xs.length = i + (xs.length + 1) from by omega]

theorem cLoop_eqs (c : Int) (es : List Edit) (he : ∀ e ∈ es, e.op = .eq) :
    ∀ (i : Nat) (s : List (Nat × Nat) × Option (Nat × Nat)), cLoop c es i s = s := by
  induction es with
  | nil => intro i s; rfl
  | cons e es ih =>
    intro i s
    have hop : e.op = .eq := he e (by simp)
    have hch : isChange e = false := by simp [isChange, hop]
    simp only [cLoop, cStep, hch, Bool.false_eq_true, if_false]
    exact ih (fun x hx => he x (by simp [hx])) (i + 1) s

theorem cLoop_run (c : Int) (hc : 0 ≤ c) (r : List Edit) (hr : ∀ e ∈ r, e.op ≠ .eq) :
    ∀ (i : Nat) (gs : List (Nat × Nat)) (f : Nat),
    cLoop c r (i + 1) (gs, some (f, i)) = (gs, some (f, i + r.length)) := by
  induction r with
  | nil => intro i gs f; simp [cLoop]
  | cons e r ih =>
    intro i gs f
    have hch : isChange e = true := by simp [isChange, hr e (by simp)]
    simp only [cLoop, cStep, hch, if_true, List.length_cons]
    split
    · have := ih (fun x hx => hr x (by simp [hx])) (i + 1) gs f
      rw [this]
      rw [show i + 1 + r.length = i + (r.length + 1) from by omega]
    · rename_i hgap
      exfalso
      push_cast at hgap
      omega

theorem uwWrite_length (edits : List Edit) (c : Int) (hc : 0 ≤ c) :
    (uwWrite edits c).length = (clusters edits c).length := by
  have h := uwWrite_ranges edits c hc
  have h1 : (uwWrite edits c).length = (hunkRanges edits c).length := by
    simp [hunkRanges]
  rw [h1, h, List.length_map]

theorem clusters_two_runs (c : Int) (hc : 0 ≤ c)
    (e0 r1 mid r2 e3 : List Edit)
    (he0 : ∀ e ∈ e0, e.op = .eq) (hr1n : r1 ≠ []) (hr1 : ∀ e ∈ r1, e.op ≠ .eq)
    (hmid : ∀ e ∈ mid, e.op = .eq) (hr2n : r2 ≠ []) (hr2 : ∀ e ∈ r2, e.op ≠ .eq)
    (he3 : ∀ e ∈ e3, e.op = .eq) :
    ((mid.length : Int) ≤ 2 * c →
      (clusters (e0 ++ r1 ++ mid ++ r2 ++ e3) c).length = 1) ∧
    (2 * c < (mid.length : Int) →
      (clusters (e0 ++ r1 ++ mid ++ r2 ++ e3) c).length = 2) := by
  obtain ⟨h1, t1, rfl⟩ := List.exists_cons_of_ne_nil hr1n
  obtain ⟨h2, t2, rfl⟩ := List.exists_cons_of_ne_nil hr2n
  have hch1 : isChange h1 = true := by simp [isChange, hr1 h1 (by simp)]
  have hch2 : isChange h2 = true := by simp [isChange, hr2 h2 (by simp)]
  have base : cLoop c (e0 ++ (h1 :: t1) ++ mid) 0 ([], none) =
      ([], some (e0.length, e0.length + t1.length)) := by
    rw [cLoop_append, cLoop_append, cLoop_eqs c e0 he0]
    simp only [Nat.zero_add, cLoop, cStep, hch1, if_true]
    rw [cLoop_run c hc t1 (fun x hx => hr1 x (by simp [hx]))]
    rw [cLoop_eqs c mid hmid]
  constructor
  · intro hm
    rw [clusters]
    rw [show e0 ++ (h1 :: t1) ++ mid ++ (h2 :: t2) ++ e3 =
      ((e0 ++ (h1 :: t1) ++ mid) ++ (h2 :: t2)) ++ e3 from by simp]
    rw [cLoop_append, cLoop_append, base]
    simp only [cLoop, cStep, hch1, hch2, if_true]
    rw [if_pos (by push_cast; simp; omega)]
    rw [cLoop_run c hc t2 (fun x hx => hr2 x (by simp [hx]))]
    rw [cLoop_eqs c e3 he3]
    rfl
  · intro hm
    rw [clusters]
    rw [show e0 ++ (h1 :: t1) ++ mid ++ (h2 :: t2) ++ e3 =
      ((e0 ++ (h1 :: t1) ++ mid) ++ (h2 :: t2)) ++ e3 from by simp]
    rw [cLoop_append, cLoop_append, base]
    simp only [cLoop, cStep, hch1, hch2, if_true]
    rw [if_neg (by push_cast; simp; omega)]
    rw [cLoop_run c hc t2 (fun x hx => hr2 x (by simp [hx]))]
    rw [cLoop_eqs c e3 he3]
    rfl

theorem lastUnder_step (c : Int) (i : Nat) (e : Edit)
    (s : List (Nat × Nat) × Option (Nat × Nat)) (h : lastUnder s i) :
    lastUnder (cStep c i e s) (i + 1) := by
  obtain ⟨gs, o⟩ := s
  by_cases hch : isChange e
  · cases o with
    | none => simp [cStep, hch, lastUnder]
    | some fl =>
      obtain ⟨f, l⟩ := fl
      simp only [cStep, hch, if_true]
      split <;> simp [lastUnder]
  · cases o with
    | none => simpa [cStep, hch, lastUnder] using h
    | some fl =>
      obtain ⟨f, l⟩ := fl
      simp only [lastUnder] at h
      simpa [cStep, hch, lastUnder] using by omega

theorem cRel_step (c1 c2 : Int) (hc : 0 ≤ c1) (h12 : c1 ≤ c2) (i : Nat) (e : Edit)
    (s1 s2 : List (Nat × Nat) × Option (Nat × Nat))
    (hR : CRel s1 s2) (hU : lastUnder s1 i) :
    CRel (cStep c1 i e s1) (cStep c2 i e s2) := by
  obtain ⟨gs1, o1⟩ := s1
  obtain ⟨gs2, o2⟩ := s2
  by_cases hch : isChange e
  · cases o1 with
    | none =>
      obtain ⟨hg1, hg2, ho2⟩ := hR
      subst ho2
      simp only [cStep, hch, if_true]
      exact ⟨i, rfl, le_refl i, le_refl i, by simp [hg1], by simp [hg1]⟩
    | some fl =>
      obtain ⟨f1, l1⟩ := fl
      obtain ⟨f2, ho2, hf, hf1l, hlast, hmem⟩ := hR
      simp only at ho2
      subst ho2
      simp only [lastUnder] at hU
      simp only [cStep, hch, if_true]
      by_cases hgap1 : (i : Int) - l1 - 1 ≤ 2 * c1
      · rw [if_pos hgap1, if_pos (by omega)]
        refine ⟨f2, rfl, hf, by omega, fun g1 hg1 => by have := hlast g1 hg1; omega,
          fun g1 hg1 => ?_⟩
        rcases hmem g1 hg1 with h | h
        · exact Or.inl h
        · exact Or.inr ⟨h.1, by omega⟩
      · rw [if_neg hgap1]
        by_cases hgap2 : (i : Int) - l1 - 1 ≤ 2 * c2
        · rw [if_pos hgap2]
          refine ⟨f2, rfl, by omega, le_refl i, fun g1 hg1 => ?_, fun g1 hg1 => ?_⟩
          · rcases List.mem_append.mp hg1 with h | h
            · have := hlast g1 h; omega
            · simp only [List.mem_singleton] at h; subst h; omega
          · rcases List.mem_append.mp hg1 with h | h
            · rcases hmem g1 h with h2 | h2
              · exact Or.inl h2
              · exact Or.inr ⟨h2.1, by have := hlast g1 h; omega⟩
            · simp only [List.mem_singleton] at h
              subst h
              exact Or.inr ⟨hf, by omega⟩
        · rw [if_neg hgap2]
          refine ⟨i, rfl, le_refl i, le_refl i, fun g1 hg1 => ?_, fun g1 hg1 => ?_⟩
          · rcases List.mem_append.mp hg1 with h | h
            · have := hlast g1 h; omega
            · simp only [List.mem_singleton] at h; subst h; omega
          · rcases List.mem_append.mp hg1 with h | h
            · rcases hmem g1 h with h2 | h2
              · obtain ⟨g2, hg2, hq⟩ := h2
                exact Or.inl ⟨g2, by simp [List.mem_append.mpr (Or.inl hg2)], hq⟩
              · exact Or.inl ⟨(f2, l1), by simp, h2.1, h2.2⟩
            · simp only [List.mem_singleton] at h
              subst h
              exact Or.inl ⟨(f2, l1), by simp, hf, le_refl _⟩
  · cases o1 with
    | none =>
      obtain ⟨hg1, hg2, ho2⟩ := hR
      simp only [cStep, hch, Bool.false_eq_true, if_false]
      exact ⟨hg1, hg2, ho2⟩
    | some fl =>
      obtain ⟨f1, l1⟩ := fl
      simp only [cStep, hch, Bool.false_eq_true, if_false]
      exact hR

theorem cRel_loop (c1 c2 : Int) (hc : 0 ≤ c1) (h12 : c1 ≤ c2) :
    ∀ (rest : List Edit) (i : Nat) (s1 s2 : List (Nat × Nat) × Option (Nat × Nat)),
    CRel s1 s2 → lastUnder s1 i →
    CRel (cLoop c1 rest i s1) (cLoop c2 rest i s2)
  | [], i, s1, s2, hR, hU => hR
  | e :: rest, i, s1, s2, hR, hU =>
    cRel_loop c1 c2 hc h12 rest (i + 1) _ _
      (cRel_step c1 c2 hc h12 i e s1 s2 hR hU) (lastUnder_step c1 i e s1 hU)

theorem clusters_refine (edits : List Edit) (c1 c2 : Int) (hc : 0 ≤ c1) (h12 : c1 ≤ c2) :
    ∀ g1 ∈ clusters edits c1, ∃ g2 ∈ clusters edits c2, g2.1 ≤ g1.1 ∧ g1.2 ≤ g2.2 := by
  have hR := cRel_loop c1 c2 hc h12 edits 0 ([], none) ([], none)
    (by exact ⟨rfl, rfl, rfl⟩) (by trivial)
  intro g1 hg1
  rw [clusters] at hg1
  rcases hs1 : cLoop c1 edits 0 ([], none) with ⟨gs1, o1⟩
  rcases hs2 : cLoop c2 edits 0 ([], none) with ⟨gs2, o2⟩
  rw [hs1] at hg1 hR
  rw [hs2] at hR
  cases o1 with
  | none =>
    obtain ⟨hg, _, _⟩ := hR
    subst hg
    simp at hg1
  | some fl =>
    obtain ⟨f1, l1⟩ := fl
    obtain ⟨f2, ho2, hf, hf1l, hlast, hmem⟩ := hR
    simp only at ho2
    rw [clusters, hs2, ho2]
    simp only [Option.toList_some] at hg1 ⊢
    rcases List.mem_append.mp hg1 with h | h
    · rcases hmem g1 h with h2 | h2
      · obtain ⟨g2, hg2, hq⟩ := h2
        exact ⟨g2, List.mem_append.mpr (Or.inl hg2), hq⟩
      · exact ⟨(f2, l1), List.mem_append.mpr (Or.inr (by simp)), h2.1, h2.2⟩
    · simp only [List.mem_singleton] at h
      subst h
      exact ⟨(f2, l1), List.mem_append.mpr (Or.inr (by simp)), hf, le_refl _⟩


end Diff

namespace Diff

/-! ## Claim theorems: renderer edge cases -/

/-- C5: `WriteUnified` applied to the single edit list
`[Delete "removed\n"]` with context 0 writes exactly the bytes
`"@@ -1 +0,0 @@\n-removed\n"`: the empty new side is rendered with start
line 0 and count 0, and the old side count 1 is omitted. -/
theorem C5_write_unified_delete_context0 :
    WriteUnified [⟨.del, "removed\n", ""⟩] 0 = "@@ -1 +0,0 @@\n-removed\n" := by
  decide

/-- C10: the no newline marker is emitted only for nonempty line text:
an edit whose rendered line text is the empty string is written as just
the operation glyph, with no terminator and no marker (shown both for
the per edit rendering `writeEdit` used by `WriteUnified`, and for a
whole `WriteUnified` call). -/
theorem C10_empty_line_no_marker :
    (∀ e : Edit, editLine e = "" → writeEdit e = e.op.string) ∧
    WriteUnified [⟨.ins, "", ""⟩] 0 = "@@ -0,0 +1 @@\n+" := by
  constructor
  · intro e he
    unfold writeEdit writeLine editLine at *
    by_cases hdel : e.op = .del <;> simp [hdel] at he ⊢ <;> simp [he]
  · decide

/-- Witness for C10 at the concrete edit `Insert ""`. -/
theorem C10_empty_line_no_marker_witness :
    writeEdit ⟨.ins, "", ""⟩ = OpType.ins.string :=
  C10_empty_line_no_marker.1 ⟨.ins, "", ""⟩ (by decide)

/-- C6 counterexample: the edit `Insert ""` has rendered line text that
lacks a trailing newline terminator, yet `WriteUnified` renders it as
just the glyph, with no appended terminator and no marker line; so the
claim as stated (which quantifies over every edit whose line text lacks
a terminator) is false for empty line text. -/
theorem C6_counterexample :
    editLine (⟨.ins, "", ""⟩ : Edit) = "" ∧
    (editLine (⟨.ins, "", ""⟩ : Edit)).back ≠ '\n' ∧
    WriteUnified [⟨.ins, "", ""⟩] 0 = "@@ -0,0 +1 @@\n+" ∧
    writeEdit ⟨.ins, "", ""⟩ ≠
      OpType.ins.string ++ "" ++ "\n\\ No newline at end of file\n" := by
  refine ⟨by decide, by decide, by decide, by decide⟩

/-- C6 (amended): for every rendered edit whose line text is nonempty
and lacks a trailing newline terminator, the unified rendering appends a
terminator followed by the literal marker line
`\ No newline at end of file`; this applies independently to the old
side of a `Delete` and the new side of an `Insert` when such a pair
replaces a final terminator-less line (second conjunct: the marker
appears after each of the two lines). -/
theorem C6_no_newline_marker :
    (∀ e : Edit, editLine e ≠ "" → (editLine e).back ≠ '\n' →
      writeEdit e = e.op.string ++ editLine e ++ "\n\\ No newline at end of file\n") ∧
    WriteUnified [⟨.del, "\x7d", ""⟩, ⟨.ins, "", "\x7d"⟩] 0 =
      "@@ -1 +1 @@\n-\x7d\n\\ No newline at end of file\n+\x7d\n\\ No newline at end of file\n" := by
  constructor
  · intro e hne hnl
    have hd : (editLine e).data ≠ [] := fun hd => hne (String.ext (by rw [hd]))
    have hpos : 0 < (editLine e).length := List.length_pos.mpr hd
    unfold writeEdit writeLine editLine at *
    by_cases hdel : e.op = .del <;> simp_all [String.append_assoc]
  · decide

/-- Witness for C6 at the concrete edit `Delete "\x7d"`. -/
theorem C6_no_newline_marker_witness :
    writeEdit ⟨.del, "\x7d", ""⟩ =
      OpType.del.string ++ "\x7d" ++ "\n\\ No newline at end of file\n" :=
  C6_no_newline_marker.1 ⟨.del, "\x7d", ""⟩ (by decide) (by decide)

/-- C7 counterexample: `WriteUnified` performs no validation of the
context value; called with context `-1` on `[Delete "x\n"]` it silently
produces nonempty (malformed) output instead of rejecting the negative
context. -/
theorem C7_counterexample :
    WriteUnified [⟨.del, "x\n", ""⟩] (-1) = "@@ -2,0 +0,-1 @@\n" ∧
    WriteUnified [⟨.del, "x\n", ""⟩] (-1) ≠ "" := by
  refine ⟨by decide, by decide⟩

/-- C7 (amended): the option based configuration entry point rejects a
negative context eagerly: `WithContext` panics (embedded as `none`)
exactly when its argument is negative, before any computation begins.
The direct `WriteUnified` entry point performs no such validation: with
a negative context it silently produces output. -/
theorem C7_negative_context :
    (∀ lines : Int, lines < 0 → WithContext lines = none) ∧
    (∀ lines : Int, 0 ≤ lines → WithContext lines ≠ none) ∧
    WriteUnified [⟨.del, "x\n", ""⟩] (-1) = "@@ -2,0 +0,-1 @@\n" := by
  refine ⟨fun lines h => ?_, fun lines h => ?_, by decide⟩
  · simp [WithContext, h]
  · simp [WithContext, h, not_lt.mpr h]

/-- Witness for C7 at the concrete context value `-1`. -/
theorem C7_negative_context_witness :
    WithContext (-1) = none :=
  C7_negative_context.1 (-1) (by decide)

/-- C4: for every edit list and nonnegative context, when two runs of
changes are separated by a run of equal edits of length exactly
`2 * context`, the unified writer emits a single hunk (one header),
and when the separating run has length `2 * context + 1` or more it
emits two hunks (each written hunk renders exactly one header). -/
theorem C4_hunk_merge_threshold (c : Int) (e0 r1 mid r2 e3 : List Edit)
    (hc : 0 ≤ c) (he0 : ∀ e ∈ e0, e.op = .eq) (hr1n : r1 ≠ [])
    (hr1 : ∀ e ∈ r1, e.op ≠ .eq) (hmid : ∀ e ∈ mid, e.op = .eq)
    (hr2n : r2 ≠ []) (hr2 : ∀ e ∈ r2, e.op ≠ .eq) (he3 : ∀ e ∈ e3, e.op = .eq) :
    ((mid.length : Int) = 2 * c →
      (uwWrite (e0 ++ r1 ++ mid ++ r2 ++ e3) c).length = 1) ∧
    (2 * c + 1 ≤ (mid.length : Int) →
      (uwWrite (e0 ++ r1 ++ mid ++ r2 ++ e3) c).length = 2) := by
  have h := clusters_two_runs c hc e0 r1 mid r2 e3 he0 hr1n hr1 hmid hr2n hr2 he3
  have hl := uwWrite_length (e0 ++ r1 ++ mid ++ r2 ++ e3) c hc
  exact ⟨fun hm => by rw [hl]; exact h.1 (by omega),
         fun hm => by rw [hl]; exact h.2 (by omega)⟩

/-- Witness for C4: two changes separated by exactly two equal edits
merge into one hunk at context 1. -/
theorem C4_hunk_merge_threshold_witness :
    (uwWrite ([] ++ [⟨.del, "a\n", ""⟩] ++ [⟨.eq, "x\n", "x\n"⟩, ⟨.eq, "y\n", "y\n"⟩] ++
      [⟨.ins, "", "b\n"⟩] ++ []) 1).length = 1 :=
  (C4_hunk_merge_threshold 1 [] [⟨.del, "a\n", ""⟩]
    [⟨.eq, "x\n", "x\n"⟩, ⟨.eq, "y\n", "y\n"⟩] [⟨.ins, "", "b\n"⟩] []
    (by decide) (by decide) (by decide) (by decide) (by decide) (by decide)
    (by decide) (by decide)).1 (by decide)

/-- C8: for every edit list and contexts `0 ≤ c1 ≤ c2`, every hunk
written at `c1` is covered by a hunk written at `c2` (so no hunk shows
fewer edit lines at the larger context), and every pair of edit indexes
rendered in one hunk at `c1` is rendered in one hunk at `c2` (growing
the context can only merge hunks, never split them). -/
theorem C8_context_monotone (edits : List Edit) (c1 c2 : Int)
    (h0 : 0 ≤ c1) (h12 : c1 ≤ c2) :
    (∀ h1 ∈ uwWrite edits c1, ∃ h2 ∈ uwWrite edits c2,
        h2.hunkStart ≤ h1.hunkStart ∧ h1.endIdx ≤ h2.endIdx ∧
        h1.endIdx - h1.hunkStart ≤ h2.endIdx - h2.hunkStart) ∧
    (∀ (i j : Int), ∀ h1 ∈ uwWrite edits c1,
        h1.hunkStart ≤ i → i < h1.endIdx → h1.hunkStart ≤ j → j < h1.endIdx →
        ∃ h2 ∈ uwWrite edits c2,
          h2.hunkStart ≤ i ∧ i < h2.endIdx ∧ h2.hunkStart ≤ j ∧ j < h2.endIdx) := by
  have main : ∀ h1 ∈ uwWrite edits c1, ∃ h2 ∈ uwWrite edits c2,
      h2.hunkStart ≤ h1.hunkStart ∧ h1.endIdx ≤ h2.endIdx := by
    intro h1 hh1
    have hm : (h1.hunkStart, h1.endIdx) ∈ hunkRanges edits c1 :=
      List.mem_map_of_mem _ hh1
    rw [uwWrite_ranges edits c1 h0] at hm
    obtain ⟨g1, hg1, hr1⟩ := List.mem_map.mp hm
    obtain ⟨g2, hg2, hq1, hq2⟩ := clusters_refine edits c1 c2 h0 h12 g1 hg1
    have hm2 : clusterRange edits.length c2 g2 ∈ hunkRanges edits c2 := by
      rw [uwWrite_ranges edits c2 (by omega)]
      exact List.mem_map_of_mem _ hg2
    rw [hunkRanges] at hm2
    obtain ⟨h2, hh2, hr2⟩ := List.mem_map.mp hm2
    have e11 : h1.hunkStart = max 0 ((g1.1 : Int) - c1) := by
      have := congrArg Prod.fst hr1
      simpa [clusterRange] using this.symm
    have e12 : h1.endIdx = min (edits.length : Int) ((g1.2 : Int) + c1 + 1) := by
      have := congrArg Prod.snd hr1
      simpa [clusterRange] using this.symm
    have e21 : h2.hunkStart = max 0 ((g2.1 : Int) - c2) := by
      have := congrArg Prod.fst hr2
      simpa [clusterRange] using this
    have e22 : h2.endIdx = min (edits.length : Int) ((g2.2 : Int) + c2 + 1) := by
      have := congrArg Prod.snd hr2
      simpa [clusterRange] using this
    exact ⟨h2, hh2, by rw [e11, e21]; omega, by rw [e12, e22]; omega⟩
  refine ⟨fun h1 hh1 => ?_, fun i j h1 hh1 hi1 hi2 hj1 hj2 => ?_⟩
  · obtain ⟨h2, hh2, ha, hb⟩ := main h1 hh1
    exact ⟨h2, hh2, ha, hb, by omega⟩
  · obtain ⟨h2, hh2, ha, hb⟩ := main h1 hh1
    exact ⟨h2, hh2, by omega, by omega, by omega, by omega⟩

/-- Witness for C8 at a concrete edit list and contexts 0 and 1. -/
theorem C8_context_monotone_witness :
    ∃ h2 ∈ uwWrite [⟨.del, "a\n", ""⟩, ⟨.eq, "x\n", "x\n"⟩, ⟨.ins, "", "b\n"⟩] 1,
      h2.hunkStart ≤ (⟨1, 1, 0, 0, 0, 1⟩ : Hunk).hunkStart ∧
      (⟨1, 1, 0, 0, 0, 1⟩ : Hunk).endIdx ≤ h2.endIdx ∧
      (⟨1, 1, 0, 0, 0, 1⟩ : Hunk).endIdx - (⟨1, 1, 0, 0, 0, 1⟩ : Hunk).hunkStart ≤
        h2.endIdx - h2.hunkStart :=
  (C8_context_monotone [⟨.del, "a\n", ""⟩, ⟨.eq, "x\n", "x\n"⟩, ⟨.ins, "", "b\n"⟩] 0 1
    (by decide) (by decide)).1 ⟨1, 1, 0, 0, 0, 1⟩ (by decide)


/-! ## SES engine: correctness development -/

theorem kRange_mem (d : Nat) (k : Int) :
    k ∈ kRange d ↔ -(d : Int) ≤ k ∧ k ≤ d ∧ 2 ∣ k + d := by
  rw [kRange, List.mem_map]
  constructor
  · rintro ⟨j, hj, hjk⟩
    rw [List.mem_range] at hj
    exact ⟨by omega, by omega, ⟨(j : Int), by omega⟩⟩
  · rintro ⟨h1, h2, q, hq⟩
    refine ⟨((k + d) / 2).toNat, List.mem_range.mpr (by omega), by omega⟩

theorem kRange_nodup (d : Nat) : (kRange d).Nodup := by
  rw [kRange]
  refine List.Nodup.map ?_ (List.nodup_range (d + 1))
  intro x y hxy
  simp only at hxy
  omega

theorem fwdDown_congr (v w : VArr) (d k : Int)
    (h1 : v (k - 1) = w (k - 1)) (h2 : v (k + 1) = w (k + 1)) :
    fwdDown v d k ↔ fwdDown w d k := by
  rw [fwdDown, fwdDown, h1, h2]

theorem stepX_congr (v w : VArr) (d k : Int)
    (h1 : v (k - 1) = w (k - 1)) (h2 : v (k + 1) = w (k + 1)) :
    stepX v d k = stepX w d k := by
  rw [stepX, stepX, h1, h2]
  by_cases h : fwdDown w d k
  · rw [if_pos ((fwdDown_congr v w d k h1 h2).mpr h), if_pos h]
  · rw [if_neg (fun hc => h ((fwdDown_congr v w d k h1 h2).mp hc)),
      if_neg h]

theorem fpoint_congr (a b : List String) (v w : VArr) (d k : Int)
    (h1 : v (k - 1) = w (k - 1)) (h2 : v (k + 1) = w (k + 1)) :
    fpoint a b v d k = fpoint a b w d k := by
  rw [fpoint, fpoint, stepX_congr v w d k h1 h2]

theorem kHit_congr (a b : List String) (v w : VArr) (d k : Int)
    (h1 : v (k - 1) = w (k - 1)) (h2 : v (k + 1) = w (k + 1)) :
    kHit a b v d k ↔ kHit a b w d k := by
  rw [kHit, kHit, fpoint_congr a b v w d k h1 h2]

theorem kRange_not_succ (d : Nat) (k : Int) (hk : k ∈ kRange d) :
    k + 1 ∉ kRange d ∧ k - 1 ∉ kRange d := by
  rw [kRange_mem] at hk
  obtain ⟨h1, h2, q, hq⟩ := hk
  constructor
  · intro hc
    rw [kRange_mem] at hc
    obtain ⟨-, -, r, hr⟩ := hc
    omega
  · intro hc
    rw [kRange_mem] at hc
    obtain ⟨-, -, r, hr⟩ := hc
    omega

theorem kLoop_run (a b : List String) (d : Nat) :
    ∀ (ks : List Int) (v : VArr),
    (∀ k ∈ ks, k ∈ kRange d) → ks.Nodup →
    (∀ j, v j = if j ∈ kRange d ∧ ¬ kSkip a b j ∧ j ∉ ks
        then (fpoint a b (vIter a b d) d j).1 else vIter a b d j) →
    ((∃ k ∈ ks, ¬ kSkip a b k ∧ kHit a b (vIter a b d) d k) →
        (kLoop a b d ks v).2 = true) ∧
    (¬ (∃ k ∈ ks, ¬ kSkip a b k ∧ kHit a b (vIter a b d) d k) →
        (kLoop a b d ks v).2 = false ∧
        (∀ j, (kLoop a b d ks v).1 j =
          if j ∈ kRange d ∧ ¬ kSkip a b j then (fpoint a b (vIter a b d) d j).1
          else vIter a b d j)) := by
  intro ks
  induction ks with
  | nil =>
    intro v _ _ hV
    refine ⟨by rintro ⟨k, hk, -⟩; simp at hk, fun _ => ⟨rfl, fun j => ?_⟩⟩
    have := hV j
    simp only [List.not_mem_nil, not_false_iff, and_true] at this
    exact this
  | cons k ks ih =>
    intro v hmem hnd hV
    by_cases hskip : kSkip a b k
    · have hV' : ∀ j, v j = if j ∈ kRange d ∧ ¬ kSkip a b j ∧ j ∉ ks
          then (fpoint a b (vIter a b d) d j).1 else vIter a b d j := by
        intro j
        rw [hV j]
        by_cases hjk : j = k
        · subst hjk
          rw [if_neg (by tauto), if_neg (by tauto)]
        · simp [hjk, List.mem_cons]
      have hrec := ih v (fun x hx => hmem x (List.mem_cons_of_mem k hx))
        (List.Nodup.of_cons hnd) hV'
      rw [kLoop, if_pos hskip]
      constructor
      · rintro ⟨k', hk', hs', hh'⟩
        rcases List.mem_cons.mp hk' with rfl | hk'
        · exact absurd hskip hs'
        · exact hrec.1 ⟨k', hk', hs', hh'⟩
      · intro hno
        exact hrec.2 (fun ⟨k', hk', hs', hh'⟩ => hno ⟨k', List.mem_cons_of_mem k hk', hs', hh'⟩)
    · have hk : k ∈ kRange d := hmem k (List.mem_cons_self k ks)
      have hr1 : v (k - 1) = vIter a b d (k - 1) := by
        rw [hV (k - 1), if_neg (by intro h; exact (kRange_not_succ d k hk).2 h.1)]
      have hr2 : v (k + 1) = vIter a b d (k + 1) := by
        rw [hV (k + 1), if_neg (by intro h; exact (kRange_not_succ d k hk).1 h.1)]
      have hfp : fpoint a b v d k = fpoint a b (vIter a b d) d k :=
        fpoint_congr a b v (vIter a b d) d k hr1 hr2
      have hhit : kHit a b v d k ↔ kHit a b (vIter a b d) d k :=
        kHit_congr a b v (vIter a b d) d k hr1 hr2
      rw [kLoop, if_neg hskip]
      by_cases hh : kHit a b v d k
      · rw [if_pos hh]
        refine ⟨fun _ => rfl, fun hno => absurd ?_ hno⟩
        exact ⟨k, List.mem_cons_self k ks, hskip, hhit.mp hh⟩
      · rw [if_neg hh]
        have hknotks : k ∉ ks := (List.nodup_cons.mp hnd).1
        have hV' : ∀ j, vUpd v k (fpoint a b v d k).1 j =
            if j ∈ kRange d ∧ ¬ kSkip a b j ∧ j ∉ ks
            then (fpoint a b (vIter a b d) d j).1 else vIter a b d j := by
          intro j
          rw [vUpd]
          by_cases hjk : j = k
          · subst hjk
            rw [if_pos rfl, if_pos ⟨hk, hskip, hknotks⟩, hfp]
          · rw [if_neg hjk, hV j]
            simp [hjk, List.mem_cons]
        have hrec := ih (vUpd v k (fpoint a b v d k).1)
          (fun x hx => hmem x (List.mem_cons_of_mem k hx))
          (List.Nodup.of_cons hnd) hV'
        constructor
        · rintro ⟨k', hk', hs', hh'⟩
          rcases List.mem_cons.mp hk' with rfl | hk'
          · exact absurd (hhit.mpr hh') hh
          · exact hrec.1 ⟨k', hk', hs', hh'⟩
        · intro hno
          exact hrec.2 (fun ⟨k', hk', hs', hh'⟩ => hno ⟨k', List.mem_cons_of_mem k hk', hs', hh'⟩)

theorem kLoop_done (a b : List String) (d : Nat) (h : sesDone a b d) :
    (kLoop a b d (kRange d) (vIter a b d)).2 = true := by
  refine (kLoop_run a b d (kRange d) (vIter a b d) (fun k hk => hk) (kRange_nodup d)
    (fun j => ?_)).1 h
  rw [if_neg (by tauto)]

theorem kLoop_not_done (a b : List String) (d : Nat) (h : ¬ sesDone a b d) :
    kLoop a b d (kRange d) (vIter a b d) = (vIter a b (d + 1), false) := by
  have hrun := (kLoop_run a b d (kRange d) (vIter a b d) (fun k hk => hk) (kRange_nodup d)
    (fun j => by rw [if_neg (by tauto)])).2 h
  have hfun : (kLoop a b d (kRange d) (vIter a b d)).1 = vIter a b (d + 1) := by
    funext j
    rw [hrun.2 j, vIter]
    by_cases h1 : j ∈ kRange d <;> by_cases h2 : kSkip a b j <;> simp [h1, h2]
  calc kLoop a b d (kRange d) (vIter a b d)
      = ((kLoop a b d (kRange d) (vIter a b d)).1,
         (kLoop a b d (kRange d) (vIter a b d)).2) := rfl
    _ = (vIter a b (d + 1), false) := by rw [hfun, hrun.1]

theorem sesLoop_run (a b : List String) (D : Nat)
    (hD : sesDone a b D) (hmin : ∀ e < D, ¬ sesDone a b e)
    (hDle : D ≤ a.length + b.length) :
    ∀ (n d : Nat), d + n = D + 1 → d ≤ D →
    sesLoop a b d (vIter a b d) = (List.range' d n).map (vIter a b) := by
  intro n
  induction n with
  | zero => omega
  | succ n ih =>
    intro d hd hdle
    have hunf : sesLoop a b d (vIter a b d) =
        vIter a b d :: (if (kLoop a b (d : Int) (kRange d) (vIter a b d)).2 = true then []
          else sesLoop a b (d + 1) (kLoop a b (d : Int) (kRange d) (vIter a b d)).1) := by
      rw [sesLoop, if_neg (show ¬ (a.length + b.length < d) from by omega)]
    rw [hunf]
    by_cases hdD : d = D
    · subst hdD
      rw [kLoop_done a b d hD]
      simp only [if_true]
      have hn : n = 0 := by omega
      subst hn
      rfl
    · have hnot : ¬ sesDone a b d := hmin d (by omega)
      rw [kLoop_not_done a b d hnot]
      simp only [Bool.false_eq_true, if_false]
      rw [ih (d + 1) (by omega) (by omega)]
      rfl

theorem shortestEdit_eq (a b : List String) (D : Nat)
    (hD : sesDone a b D) (hmin : ∀ e < D, ¬ sesDone a b e)
    (hDle : D ≤ a.length + b.length) (hpos : a.length + b.length ≠ 0) :
    shortestEdit a b = (List.range (D + 1)).map (vIter a b) := by
  rw [shortestEdit, if_neg hpos]
  have h0 : vInit = vIter a b 0 := rfl
  rw [h0, sesLoop_run a b D hD hmin hDle (D + 1) 0 (by omega) (by omega), List.range_eq_range']

/-! ## Reachability lemmas -/

theorem Reach.le {a b : List String} {x y d : Nat} (h : Reach a b x y d) :
    x ≤ a.length ∧ y ≤ b.length := by
  induction h with
  | init => exact ⟨Nat.zero_le _, Nat.zero_le _⟩
  | diag _ hx hy _ _ => exact ⟨hx, hy⟩
  | down _ hy ih => exact ⟨ih.1, hy⟩
  | right _ hx ih => exact ⟨hx, ih.2⟩

theorem Reach.diag_le {a b : List String} {x y d : Nat} (h : Reach a b x y d) :
    -(d : Int) ≤ (x : Int) - y ∧ (x : Int) - y ≤ d := by
  induction h with
  | init => simp
  | diag _ _ _ _ ih => push_cast; push_cast at ih; omega
  | down _ _ ih => push_cast; push_cast at ih; omega
  | right _ _ ih => push_cast; push_cast at ih; omega

theorem Reach.parity {a b : List String} {x y d : Nat} (h : Reach a b x y d) :
    2 ∣ (x + y + d) := by
  induction h with
  | init => simp
  | diag _ _ _ _ ih => omega
  | down _ _ ih => omega
  | right _ _ ih => omega

theorem Reach.toX {a b : List String} {x y d : Nat} (h : Reach a b x y d) :
    ReachX a b x y d := by
  induction h with
  | init => exact ReachX.init
  | diag _ hx hy he ih => exact ReachX.diag ih hx hy he
  | down _ _ ih => exact ReachX.down ih
  | right _ _ ih => exact ReachX.right ih

theorem ReachX.le_sum {a b : List String} {x y d : Nat} (h : ReachX a b x y d) :
    d ≤ x + y := by
  induction h with
  | init => omega
  | diag _ _ _ _ ih => omega
  | down _ ih => omega
  | right _ ih => omega

theorem Reach.rights (a b : List String) : ∀ x, x ≤ a.length → Reach a b x 0 x := by
  intro x
  induction x with
  | zero => exact fun _ => Reach.init
  | succ x ih => exact fun hx => Reach.right (ih (by omega)) (by omega)

theorem Reach.corner (a b : List String) :
    Reach a b a.length b.length (a.length + b.length) := by
  have h1 : Reach a b a.length 0 a.length := Reach.rights a b a.length (le_refl _)
  have h2 : ∀ y, y ≤ b.length → Reach a b a.length y (a.length + y) := by
    intro y
    induction y with
    | zero => exact fun _ => h1
    | succ y ih => exact fun hy => Reach.down (ih (by omega)) (by omega)
  exact h2 b.length (le_refl _)

theorem ReachX.truncate {a b : List String} {x y d : Nat} (h : ReachX a b x y d) :
    ∃ e, Reach a b (min x a.length) (min y b.length) e ∧
      e + (x - min x a.length) + (y - min y b.length) = d := by
  induction h with
  | init => exact ⟨0, by simpa using Reach.init, by simp⟩
  | diag h hx hy heq ih =>
    obtain ⟨e, he, hc⟩ := ih
    rw [min_eq_left (by omega), min_eq_left (by omega)] at he
    rw [min_eq_left (by omega), min_eq_left (by omega)]
    refine ⟨e, Reach.diag he hx hy heq, by omega⟩
  | down h ih =>
    obtain ⟨e, he, hc⟩ := ih
    rename_i x y d
    by_cases hy : y < b.length
    · have hy1 : min y b.length = y := min_eq_left (by omega)
      have hy2 : min (y + 1) b.length = y + 1 := min_eq_left (by omega)
      rw [hy1] at he hc
      rw [hy2]
      exact ⟨e + 1, Reach.down he hy, by omega⟩
    · have hy1 : min y b.length = b.length := min_eq_right (by omega)
      have hy2 : min (y + 1) b.length = b.length := min_eq_right (by omega)
      rw [hy1] at he hc
      rw [hy2]
      exact ⟨e, he, by omega⟩
  | right h ih =>
    obtain ⟨e, he, hc⟩ := ih
    rename_i x y d
    by_cases hx : x < a.length
    · have hx1 : min x a.length = x := min_eq_left (by omega)
      have hx2 : min (x + 1) a.length = x + 1 := min_eq_left (by omega)
      rw [hx1] at he hc
      rw [hx2]
      exact ⟨e + 1, Reach.right he hx, by omega⟩
    · have hx1 : min x a.length = a.length := min_eq_right (by omega)
      have hx2 : min (x + 1) a.length = a.length := min_eq_right (by omega)
      rw [hx1] at he hc
      rw [hx2]
      exact ⟨e, he, by omega⟩

/-! ## Snake lemmas -/

theorem snake_ge (a b : List String) (x : Nat) (y : Int) :
    x ≤ (snake a b x y).1 ∧ ((snake a b x y).1 : Int) - x = (snake a b x y).2 - y := by
  generalize hfuel : a.length - x = fuel
  induction fuel generalizing x y with
  | zero =>
    rw [snake]
    split
    · rename_i h
      omega
    · simp
  | succ fuel ih =>
    rw [snake]
    split
    · rename_i h
      have hrec := ih (x + 1) (y + 1) (by omega)
      push_cast at hrec ⊢
      omega
    · simp

theorem snake_stop (a b : List String) (x : Nat) (y : Int) :
    ¬ ((snake a b x y).1 < a.length ∧ (snake a b x y).2 < (b.length : Int) ∧
       0 ≤ (snake a b x y).2 ∧
       a.getD (snake a b x y).1 "" = b.getD (snake a b x y).2.toNat "") := by
  generalize hfuel : a.length - x = fuel
  induction fuel generalizing x y with
  | zero =>
    rw [snake]
    split
    · rename_i h
      omega
    · rename_i h
      simpa using h
  | succ fuel ih =>
    rw [snake]
    split
    · rename_i h
      exact ih (x + 1) (y + 1) (by omega)
    · rename_i h
      simpa using h

theorem snake_elem (a b : List String) (x : Nat) (y : Int) :
    ∀ z : Nat, x ≤ z → z < (snake a b x y).1 →
    z < a.length ∧ y + ((z : Int) - x) < (b.length : Int) ∧
      0 ≤ y + ((z : Int) - x) ∧
      a.getD z "" = b.getD (y + ((z : Int) - x)).toNat "" := by
  generalize hfuel : a.length - x = fuel
  induction fuel generalizing x y with
  | zero =>
    intro z hz1 hz2
    rw [snake] at hz2
    split at hz2
    · rename_i h
      omega
    · omega
  | succ fuel ih =>
    intro z hz1 hz2
    rw [snake] at hz2
    split at hz2
    · rename_i h
      by_cases hzx : z = x
      · subst hzx
        refine ⟨h.1, by omega, by omega, ?_⟩
        simpa using h.2.2.2
      · have hrec := ih (x + 1) (y + 1) (by omega) z (by omega) hz2
        push_cast at hrec
        have harith : y + 1 + ((z : Int) - ((x : Int) + 1)) = y + ((z : Int) - x) := by ring
        rw [harith] at hrec
        exact hrec
    · omega

theorem snake_reachX (a b : List String) (d : Nat) (x y : Nat)
    (h : ReachX a b x y d) :
    0 ≤ (snake a b x (y : Int)).2 ∧
    ReachX a b (snake a b x (y : Int)).1 ((snake a b x (y : Int)).2).toNat d := by
  generalize hfuel : a.length - x = fuel
  induction fuel generalizing x y with
  | zero =>
    rw [snake]
    split
    · rename_i hcond
      omega
    · simpa using h
  | succ fuel ih =>
    rw [snake]
    split
    · rename_i hcond
      have heq : a.getD x "" = b.getD y "" := by
        have := hcond.2.2.2
        simpa using this
      have hstep : ReachX a b (x + 1) (y + 1) d :=
        ReachX.diag h hcond.1 (by exact_mod_cast hcond.2.1) heq
      have hrec := ih (x + 1) (y + 1) hstep (by omega)
      push_cast at hrec ⊢
      exact hrec
    · simpa using h

/-! ## Frontier value lemmas -/

theorem vIter_write (a b : List String) (d : Nat) (k : Int)
    (h1 : ¬ kSkip a b k) (h2 : k ∈ kRange d) :
    vIter a b (d + 1) k = (fpoint a b (vIter a b d) d k).1 := by
  simp only [vIter]
  rw [if_pos ⟨h1, h2⟩]

theorem vIter_keep (a b : List String) (d : Nat) (k : Int)
    (h : ¬ (¬ kSkip a b k ∧ k ∈ kRange d)) :
    vIter a b (d + 1) k = vIter a b d k := by
  simp only [vIter]
  rw [if_neg h]

theorem vIter_unwritten (a b : List String) :
    ∀ (d : Nat) (k : Int),
    (kSkip a b k ∨ k < -((d : Int) - 1) ∨ (d : Int) - 1 < k) →
    vIter a b d k = 0 := by
  intro d
  induction d with
  | zero => intro k _; rfl
  | succ d ih =>
    intro k hk
    have hnw : ¬ (¬ kSkip a b k ∧ k ∈ kRange d) := by
      rintro ⟨hs, hr⟩
      rw [kRange_mem] at hr
      rcases hk with hk | hk | hk
      · exact hs hk
      · push_cast at hk; omega
      · push_cast at hk; omega
    rw [vIter_keep a b d k hnw]
    apply ih k
    rcases hk with hk | hk | hk
    · exact Or.inl hk
    · right; left; push_cast at hk ⊢; omega
    · right; right; push_cast at hk ⊢; omega

theorem vIter_written_ge (a b : List String) :
    ∀ (d : Nat) (k : Int), ¬ kSkip a b k →
    -((d : Int) - 1) ≤ k → k ≤ (d : Int) - 1 →
    k ≤ (vIter a b d k : Int) := by
  intro d
  induction d with
  | zero => intro k _ h1 h2; simp at h1 h2; omega
  | succ d ih =>
    intro k hskip hk1 hk2
    push_cast at hk1 hk2
    by_cases hw : k ∈ kRange d
    · rw [vIter_write a b d k hskip hw]
      have hsge := (snake_ge a b (stepX (vIter a b d) d k)
        ((stepX (vIter a b d) d k : Int) - k)).1
      have hstep : k ≤ (stepX (vIter a b d) d k : Int) := by
        rw [stepX]
        split
        · rename_i hdown
          rcases hdown with hkd | ⟨hne, hlt⟩
          · have : (0 : Int) ≤ (vIter a b d (k + 1) : Int) := by positivity
            omega
          · by_cases hs : kSkip a b (k + 1)
            · have h0 := vIter_unwritten a b d (k + 1) (Or.inl hs)
              omega
            · have hk1m : -((d : Int) - 1) ≤ k + 1 ∧ k + 1 ≤ (d : Int) - 1 := by
                rw [kRange_mem] at hw
                obtain ⟨hw1, hw2, q, hq⟩ := hw
                omega
              have := ih (k + 1) hs hk1m.1 hk1m.2
              omega
        · rename_i hdown
          rw [fwdDown] at hdown
          push_neg at hdown
          by_cases hs : kSkip a b (k - 1)
          · rw [kSkip] at hs hskip
            push_neg at hskip
            have : (0 : Int) ≤ (vIter a b d (k - 1) : Int) := by positivity
            rcases hs with hs | hs
            · omega
            · omega
          · have hk1m : -((d : Int) - 1) ≤ k - 1 ∧ k - 1 ≤ (d : Int) - 1 := by
              rw [kRange_mem] at hw
              obtain ⟨hw1, hw2, q, hq⟩ := hw
              have := hdown.1
              omega
            have := ih (k - 1) hs hk1m.1 hk1m.2
            omega
      rw [fpoint]
      omega
    · rw [vIter_keep a b d k (by tauto)]
      rw [kRange_mem] at hw
      have hrange : -((d : Int) - 1) ≤ k ∧ k ≤ (d : Int) - 1 := by
        by_contra hc
        push_neg at hc
        apply hw
        refine ⟨by omega, by omega, ?_⟩
        omega
      exact ih k hskip hrange.1 hrange.2

theorem fpoint_diag (a b : List String) (v : VArr) (d k : Int) :
    (fpoint a b v d k).2 = ((fpoint a b v d k).1 : Int) - k := by
  rw [fpoint]
  have := (snake_ge a b (stepX v d k) ((stepX v d k : Int) - k)).2
  omega

theorem sesDone_zero_of_empty (a b : List String)
    (hn : a.length = 0) (hm : b.length = 0) : sesDone a b 0 := by
  refine ⟨0, by rw [kRange_mem]; simp, ?_, ?_⟩
  · rw [kSkip]
    push_neg
    omega
  · rw [kHit]
    constructor
    · rw [fpoint]
      omega
    · rw [fpoint_diag]
      rw [fpoint]
      omega

theorem fpoint_sound (a b : List String) :
    ∀ (e : Nat) (k : Int), (∀ f, f < e → ¬ sesDone a b f) →
    ¬ kSkip a b k → k ∈ kRange e →
    0 ≤ (fpoint a b (vIter a b e) e k).2 ∧
    ReachX a b (fpoint a b (vIter a b e) e k).1
      ((fpoint a b (vIter a b e) e k).2).toNat e := by
  intro e
  induction e with
  | zero =>
    intro k hnd hskip hr
    have hk0 : k = 0 := by rw [kRange_mem] at hr; omega
    subst hk0
    have hx0 : stepX (vIter a b 0) 0 0 = 0 := by
      have hfd : fwdDown (vIter a b 0) 0 0 := Or.inl (by norm_num)
      rw [stepX, if_pos hfd]
      rfl
    have hcore : 0 ≤ ((stepX (vIter a b 0) 0 0 : Int) - 0) ∧
        ReachX a b (stepX (vIter a b 0) 0 0)
          ((stepX (vIter a b 0) 0 0 : Int) - 0).toNat 0 := by
      rw [hx0]
      exact ⟨by omega, ReachX.init⟩
    rw [fpoint]
    have hsr := snake_reachX a b 0 (stepX (vIter a b 0) 0 0)
      ((stepX (vIter a b 0) 0 0 : Int) - 0).toNat hcore.2
    have hcast : ((((stepX (vIter a b 0) 0 0 : Int) - 0).toNat : Int)) =
        (stepX (vIter a b 0) 0 0 : Int) - 0 := by omega
    rw [hcast] at hsr
    have hd0 : ((0:Nat) : Int) = 0 := rfl
    exact ⟨hsr.1, hsr.2⟩
  | succ e ih =>
    intro k hnd hskip hr
    have hrm := (kRange_mem _ _).mp hr
    obtain ⟨hr1, hr2, q, hq⟩ := hrm
    have hnd' : ∀ f, f < e → ¬ sesDone a b f := fun f hf => hnd f (by omega)
    -- core: the pre snake point is sound
    have hcore : 0 ≤ ((stepX (vIter a b (e+1)) (e+1) k : Int) - k) ∧
        ReachX a b (stepX (vIter a b (e+1)) (e+1) k)
          ((stepX (vIter a b (e+1)) (e+1) k : Int) - k).toNat (e + 1) := by
      rw [stepX]
      split
      · rename_i hdown
        -- down move, reads diagonal k + 1
        have hnear : ¬ kSkip a b (k + 1) ∧ (k + 1) ∈ kRange e := by
          constructor
          · rw [kSkip]
            push_neg
            rw [kSkip] at hskip
            push_neg at hskip
            constructor
            · -- k + 1 ≤ n
              by_contra hgt
              push_neg at hgt
              have hkn : k = (a.length : Int) := by omega
              have h0 : vIter a b (e+1) (k+1) = 0 :=
                vIter_unwritten a b (e+1) (k+1) (Or.inl (by rw [kSkip]; left; omega))
              rcases hdown with hkd | ⟨hne, hlt⟩
              · omega
              · omega
            · omega
          · rw [kRange_mem]
            rcases hdown with hkd | ⟨hne, hlt⟩
            · refine ⟨by omega, by omega, by omega⟩
            · refine ⟨by omega, by omega, by omega⟩
        have hwrite := vIter_write a b e (k+1) hnear.1 hnear.2
        have hih := ih (k+1) hnd' hnear.1 hnear.2
        rw [fpoint_diag] at hih
        rw [hwrite]
        set w := (fpoint a b (vIter a b e) e (k+1)).1 with hw
        refine ⟨by omega, ?_⟩
        have hdw := ReachX.down hih.2
        have hcast : ((w : Int) - (k+1)).toNat + 1 = ((w : Int) - k).toNat := by omega
        rw [hcast] at hdw
        exact hdw
      · rename_i hdown
        rw [fwdDown] at hdown
        push_neg at hdown
        obtain ⟨hne, himp⟩ := hdown
        by_cases hs : kSkip a b (k - 1)
        · -- k - 1 out of bounds: k = -m, forced small cases
          rw [kSkip] at hs hskip
          push_neg at hskip
          have hkm : k = -(b.length : Int) := by omega
          have h0 : vIter a b (e+1) (k-1) = 0 :=
            vIter_unwritten a b (e+1) (k-1) (Or.inl (by rw [kSkip]; right; omega))
          by_cases hke : k = ((e : Int) + 1)
          · omega
          · have hle := himp (by exact_mod_cast hke)
            have h1 : vIter a b (e+1) (k+1) = 0 := by omega
            by_cases hsk1 : kSkip a b (k + 1)
            · -- k + 1 > n forces n = 0, m = 0, done at 0
              rw [kSkip] at hsk1
              have hn0 : (a.length : Int) = 0 ∧ (b.length : Int) = 0 := by
                rcases hsk1 with h | h <;> omega
              exact absurd (sesDone_zero_of_empty a b (by omega) (by omega))
                (hnd 0 (by omega))
            · have hr1m : (k + 1) ∈ kRange e := by
                rw [kRange_mem]
                refine ⟨by omega, by omega, by omega⟩
              have hwrite := vIter_write a b e (k+1) hsk1 hr1m
              have hih := ih (k+1) hnd' hsk1 hr1m
              rw [fpoint_diag] at hih
              have hzero : (fpoint a b (vIter a b e) e (k+1)).1 = 0 := by omega
              rw [hzero] at hih
              have hsum := ReachX.le_sum hih.2
              -- e ≤ (0 - (k+1)).toNat = m - 1, but also m ≤ e and parity and k ≠ -e
              omega
        · have hnear : (k - 1) ∈ kRange e := by
            rw [kRange_mem]
            refine ⟨by omega, by omega, by omega⟩
          have hwrite := vIter_write a b e (k-1) hs hnear
          have hih := ih (k-1) hnd' hs hnear
          rw [fpoint_diag] at hih
          rw [hwrite]
          set w := (fpoint a b (vIter a b e) e (k-1)).1 with hw
          refine ⟨by omega, ?_⟩
          have hdw := ReachX.right hih.2
          have hcast : ((w : Int) - (k-1)).toNat = ((w + 1 : Nat) - k).toNat := by
            push_cast
            omega
          rw [hcast] at hdw
          exact hdw
    rw [fpoint]
    have hsr := snake_reachX a b (e+1) (stepX (vIter a b (e+1)) (e+1) k)
      ((stepX (vIter a b (e+1)) (e+1) k : Int) - k).toNat hcore.2
    have hcast : ((((stepX (vIter a b (e+1)) (e+1) k : Int) - k).toNat : Int)) =
        (stepX (vIter a b (e+1)) (e+1) k : Int) - k := by omega
    rw [hcast] at hsr
    exact hsr

/-! ## Completeness: every reachable point is dominated by the frontier -/

theorem reach_le_vIter (a b : List String) {x y e : Nat}
    (h : Reach a b x y e) :
    (x : Int) ≤ (vIter a b (e + 1) ((x : Int) - (y : Int)) : Int) := by
  induction h with
  | init =>
    positivity
  | diag h hx hy heq ih =>
    rename_i x y e
    have hle := h.le
    have hdl := h.diag_le
    have hpar := h.parity
    have harg : ((x + 1 : Nat) : Int) - ((y + 1 : Nat) : Int) = (x : Int) - y := by
      push_cast
      ring
    rw [harg]
    have hskip : ¬ kSkip a b ((x : Int) - y) := by
      rw [kSkip]
      push_neg
      omega
    have hrange : ((x : Int) - y) ∈ kRange e := by
      rw [kRange_mem]
      refine ⟨by omega, by omega, by omega⟩
    have hw := vIter_write a b e ((x : Int) - y) hskip hrange
    rw [hw] at ih ⊢
    by_contra hcon
    push_neg at hcon
    have hveq : (fpoint a b (vIter a b e) e ((x : Int) - y)).1 = x := by
      push_cast at hcon
      omega
    have h2 := fpoint_diag a b (vIter a b e) e ((x : Int) - y)
    rw [hveq] at h2
    have hstop := snake_stop a b (stepX (vIter a b e) (e : Int) ((x : Int) - y))
      ((stepX (vIter a b e) (e : Int) ((x : Int) - y) : Int) - ((x : Int) - y))
    rw [fpoint] at hveq h2
    apply hstop
    refine ⟨by omega, by omega, by omega, ?_⟩
    rw [hveq, h2]
    have hty : (((x : Int) - ((x : Int) - y)).toNat) = y := by omega
    rw [hty]
    exact heq
  | down h hy ih =>
    rename_i x y e
    have hle := h.le
    have hdl := h.diag_le
    have hpar := h.parity
    have harg : (x : Int) - ((y + 1 : Nat) : Int) = (x : Int) - y - 1 := by
      push_cast
      ring
    rw [harg]
    have hskip : ¬ kSkip a b ((x : Int) - y - 1) := by
      rw [kSkip]
      push_neg
      omega
    have hrange : ((x : Int) - y - 1) ∈ kRange (e + 1) := by
      rw [kRange_mem]
      push_cast
      refine ⟨by omega, by omega, by omega⟩
    rw [vIter_write a b (e + 1) ((x : Int) - y - 1) hskip hrange]
    have hge := (snake_ge a b (stepX (vIter a b (e + 1)) ((e + 1 : Nat) : Int) ((x : Int) - y - 1))
      ((stepX (vIter a b (e + 1)) ((e + 1 : Nat) : Int) ((x : Int) - y - 1) : Int) -
        ((x : Int) - y - 1))).1
    have hstep : (x : Int) ≤
        (stepX (vIter a b (e + 1)) ((e + 1 : Nat) : Int) ((x : Int) - y - 1) : Int) := by
      rw [stepX]
      split
      · have h1 : (x : Int) - y - 1 + 1 = (x : Int) - y := by ring
        rw [h1]
        exact ih
      · rename_i hdown
        rw [fwdDown] at hdown
        push_neg at hdown
        obtain ⟨hne, himp⟩ := hdown
        by_cases hke : (x : Int) - y - 1 = ((e + 1 : Nat) : Int)
        · push_cast at hke
          omega
        · have hle2 := himp hke
          have hv : (x : Int) ≤ (vIter a b (e + 1) ((x : Int) - y - 1 + 1) : Int) := by
            rw [show (x : Int) - y - 1 + 1 = (x : Int) - y from by ring]
            exact ih
          push_cast
          omega
    rw [fpoint]
    omega
  | right h hx ih =>
    rename_i x y e
    have hle := h.le
    have hdl := h.diag_le
    have hpar := h.parity
    have harg : ((x + 1 : Nat) : Int) - (y : Int) = (x : Int) - y + 1 := by
      push_cast
      ring
    rw [harg]
    have hskip : ¬ kSkip a b ((x : Int) - y + 1) := by
      rw [kSkip]
      push_neg
      omega
    have hrange : ((x : Int) - y + 1) ∈ kRange (e + 1) := by
      rw [kRange_mem]
      push_cast
      refine ⟨by omega, by omega, by omega⟩
    rw [vIter_write a b (e + 1) ((x : Int) - y + 1) hskip hrange]
    have hge := (snake_ge a b (stepX (vIter a b (e + 1)) ((e + 1 : Nat) : Int) ((x : Int) - y + 1))
      ((stepX (vIter a b (e + 1)) ((e + 1 : Nat) : Int) ((x : Int) - y + 1) : Int) -
        ((x : Int) - y + 1))).1
    have hstep : ((x + 1 : Nat) : Int) ≤
        (stepX (vIter a b (e + 1)) ((e + 1 : Nat) : Int) ((x : Int) - y + 1) : Int) := by
      rw [stepX]
      split
      · rename_i hdown
        rcases hdown with hkd | ⟨hne, hlt⟩
        · push_cast at hkd
          omega
        · have hv : (x : Int) ≤ (vIter a b (e + 1) ((x : Int) - y + 1 - 1) : Int) := by
            rw [show (x : Int) - y + 1 - 1 = (x : Int) - y from by ring]
            exact ih
          push_cast
          push_cast at hlt
          omega
      · have hv : (x : Int) ≤ (vIter a b (e + 1) ((x : Int) - y + 1 - 1) : Int) := by
          rw [show (x : Int) - y + 1 - 1 = (x : Int) - y from by ring]
          exact ih
        push_cast
        omega
    rw [fpoint]
    push_cast at hge hstep ⊢
    omega

/-- If the bottom right corner is reachable with `e` moves, depth `e`
triggers the early return. -/
theorem done_of_reach (a b : List String) {e : Nat}
    (h : Reach a b a.length b.length e) : sesDone a b e := by
  have hdl := h.diag_le
  have hpar := h.parity
  have hskip : ¬ kSkip a b ((a.length : Int) - b.length) := by
    rw [kSkip]
    push_neg
    omega
  have hrange : ((a.length : Int) - b.length) ∈ kRange e := by
    rw [kRange_mem]
    refine ⟨by omega, by omega, by omega⟩
  have hc := reach_le_vIter a b h
  rw [vIter_write a b e ((a.length : Int) - b.length) hskip hrange] at hc
  refine ⟨(a.length : Int) - b.length, hrange, hskip, ?_, ?_⟩
  · exact hc
  · rw [fpoint_diag]
    omega

theorem findDone_notlt (a b : List String) :
    ∀ (fuel d f : Nat), d ≤ f → f < findDone a b fuel d → ¬ sesDone a b f := by
  intro fuel
  induction fuel with
  | zero =>
    intro d f h1 h2
    rw [findDone] at h2
    omega
  | succ fuel ih =>
    intro d f h1 h2
    rw [findDone] at h2
    split at h2
    · omega
    · rename_i hnd
      by_cases hf : f = d
      · rw [hf]
        exact hnd
      · exact ih (d + 1) f (by omega) h2

theorem findDone_found (a b : List String) :
    ∀ (fuel d : Nat), (∃ e, sesDone a b e ∧ d ≤ e ∧ e < d + fuel) →
    sesDone a b (findDone a b fuel d) := by
  intro fuel
  induction fuel with
  | zero =>
    intro d h
    obtain ⟨e, _, h1, h2⟩ := h
    omega
  | succ fuel ih =>
    intro d h
    rw [findDone]
    split
    · rename_i hd
      exact hd
    · rename_i hnd
      apply ih (d + 1)
      obtain ⟨e, he, h1, h2⟩ := h
      refine ⟨e, he, ?_, by omega⟩
      rcases Nat.eq_or_lt_of_le h1 with h | h
      · exact absurd (h ▸ he) hnd
      · omega

theorem sesD_done (a b : List String) : sesDone a b (sesD a b) :=
  findDone_found a b (a.length + b.length + 1) 0
    ⟨a.length + b.length, done_of_reach a b (Reach.corner a b), by omega, by omega⟩

theorem sesD_min (a b : List String) : ∀ e, e < sesD a b → ¬ sesDone a b e :=
  fun e he => findDone_notlt a b (a.length + b.length + 1) 0 e (by omega) he

/-- At the first done depth, every hitting diagonal is exact: the
stored post snake point is the corner itself (no overshoot). -/
theorem sesD_exact (a b : List String) (k : Int)
    (hskip : ¬ kSkip a b k) (hr : k ∈ kRange (sesD a b))
    (hhit : kHit a b (vIter a b (sesD a b)) (sesD a b) k) :
    (fpoint a b (vIter a b (sesD a b)) (sesD a b) k).1 = a.length ∧
    (fpoint a b (vIter a b (sesD a b)) (sesD a b) k).2 = (b.length : Int) ∧
    k = (a.length : Int) - b.length := by
  obtain ⟨hx, hy⟩ := hhit
  have hsound := fpoint_sound a b (sesD a b) k (sesD_min a b) hskip hr
  obtain ⟨hy0, hrx⟩ := hsound
  obtain ⟨e, he, hc⟩ := hrx.truncate
  have hxm : min (fpoint a b (vIter a b (sesD a b)) (sesD a b) k).1 a.length
      = a.length := by omega
  have hym : min ((fpoint a b (vIter a b (sesD a b)) (sesD a b) k).2).toNat b.length
      = b.length := by omega
  rw [hxm, hym] at he
  have hge : sesD a b ≤ e := by
    by_contra hlt
    push_neg at hlt
    exact sesD_min a b e hlt (done_of_reach a b he)
  have hd := fpoint_diag a b (vIter a b (sesD a b)) (sesD a b) k
  refine ⟨by omega, by omega, by omega⟩

/-- The first done depth is exactly the least number of non diagonal
moves needed to reach the corner. -/
theorem sesD_reach (a b : List String) :
    Reach a b a.length b.length (sesD a b) := by
  obtain ⟨k, hr, hskip, hhit⟩ := sesD_done a b
  have hex := sesD_exact a b k hskip hr hhit
  have hsound := fpoint_sound a b (sesD a b) k (sesD_min a b) hskip hr
  obtain ⟨hy0, hrx⟩ := hsound
  obtain ⟨e, he, hc⟩ := hrx.truncate
  rw [hex.1, hex.2.1] at he hc
  simp only [min_self, Int.toNat_ofNat] at he hc
  have hee : e = sesD a b := by omega
  rw [← hee]
  exact he

theorem sesD_least (a b : List String) {e : Nat}
    (h : Reach a b a.length b.length e) : sesD a b ≤ e := by
  by_contra hlt
  push_neg at hlt
  exact sesD_min a b e hlt (done_of_reach a b h)

theorem sesD_le (a b : List String) : sesD a b ≤ a.length + b.length :=
  sesD_least a b (Reach.corner a b)

/-! ## Projections of an edit script -/

theorem oldsOf_append (es fs : List Edit) :
    oldsOf (es ++ fs) = oldsOf es ++ oldsOf fs := by
  rw [oldsOf, oldsOf, oldsOf, List.filterMap_append]

theorem newsOf_append (es fs : List Edit) :
    newsOf (es ++ fs) = newsOf es ++ newsOf fs := by
  rw [newsOf, newsOf, newsOf, List.filterMap_append]

theorem changesOf_append (es fs : List Edit) :
    changesOf (es ++ fs) = changesOf es + changesOf fs := by
  rw [changesOf, changesOf, changesOf, List.filter_append, List.length_append]

theorem oldsOf_reverse (es : List Edit) :
    oldsOf es.reverse = (oldsOf es).reverse := by
  rw [oldsOf, oldsOf, List.filterMap_reverse]

theorem newsOf_reverse (es : List Edit) :
    newsOf es.reverse = (newsOf es).reverse := by
  rw [newsOf, newsOf, List.filterMap_reverse]

theorem changesOf_reverse (es : List Edit) :
    changesOf es.reverse = changesOf es := by
  rw [changesOf, changesOf, List.filter_reverse, List.length_reverse]

theorem revTrace_succ (a b : List String) (d : Nat) :
    revTrace a b (d + 1) = vIter a b (d + 1) :: revTrace a b d := by
  rw [revTrace, revTrace, List.range_succ, List.map_append, List.reverse_append]
  rfl

theorem revTrace_zero (a b : List String) :
    revTrace a b 0 = [vIter a b 0] := by
  rw [revTrace]
  rfl

theorem revTrace_length (a b : List String) (d : Nat) :
    (revTrace a b d).length = d + 1 := by
  rw [revTrace, List.length_reverse, List.length_map, List.length_range]

/-! ## The backward snake -/

theorem backSnake_run (a b : List String) (px py : Int) :
    ∀ (steps : Nat) (x y : Int) (acc : List Edit),
      (steps : Int) ≤ x - px → (steps : Int) ≤ y - py →
      (x - px = steps ∨ y - py = steps) →
      backSnake a b px py x y acc =
        (x - steps, y - steps,
          acc ++ (List.range steps).map (fun i : Nat =>
            (⟨OpType.eq, a.getD (x - 1 - i).toNat "", b.getD (y - 1 - i).toNat ""⟩ : Edit))) := by
  intro steps
  induction steps with
  | zero =>
    intro x y acc h1 h2 h3
    rw [backSnake, dif_neg (by omega)]
    simp
  | succ j ih =>
    intro x y acc h1 h2 h3
    rw [backSnake, dif_pos ⟨by omega, by omega⟩]
    rw [ih (x - 1) (y - 1) _ (by omega) (by omega) (by omega)]
    simp only [Prod.mk.injEq]
    refine ⟨by push_cast; ring, by push_cast; ring, ?_⟩
    rw [List.append_assoc]
    congr 1
    rw [List.range_succ_eq_map, List.map_cons, List.map_map, List.singleton_append]
    congr 1
    · congr 2 <;> push_cast <;> ring
    · apply List.map_congr_left
      intro i hi
      simp only [Function.comp]
      congr 2 <;> push_cast <;> ring

/-! ## Slice lemmas -/

theorem take_rev_split (l : List String) (st xt : Nat) (h : st ≤ xt) :
    (l.take xt).reverse = ((l.take xt).drop st).reverse ++ (l.take st).reverse := by
  conv_lhs => rw [← List.take_append_drop st (l.take xt)]
  rw [List.reverse_append, List.take_take, min_eq_left h]

theorem take_succ_rev (l : List String) (j : Nat) (h : j < l.length) :
    (l.take (j + 1)).reverse = l.getD j "" :: (l.take j).reverse := by
  rw [List.take_succ, List.reverse_append]
  have : l[j]? = some (l.getD j "") := by
    rw [List.getElem?_eq_getElem h, List.getD_eq_getElem l "" h]
  rw [this]
  rfl

theorem map_range_eq_drop_rev (l : List String) (st steps : Nat)
    (h : st + steps ≤ l.length) :
    (List.range steps).map (fun i => l.getD (st + steps - 1 - i) "") =
      ((l.take (st + steps)).drop st).reverse := by
  apply List.ext_getElem
  · simp only [List.length_map, List.length_range, List.length_reverse,
      List.length_drop, List.length_take]
    omega
  · intro i h1 h2
    simp only [List.getElem_map, List.getElem_range, List.getElem_reverse,
      List.getElem_drop, List.getElem_take, List.length_reverse, List.length_drop,
      List.length_take] at h2 ⊢
    have hlen : ((l.take (st + steps)).drop st).length = steps := by
      simp
      omega
    rw [List.getD_eq_getElem l "" (by omega)]
    congr 1
    omega

/-! ## Script edit lists of one iteration -/

theorem oldsOf_snake (a b : List String) (x y : Int) (steps : Nat) :
    oldsOf ((List.range steps).map (fun i : Nat =>
        (⟨OpType.eq, a.getD (x - 1 - i).toNat "", b.getD (y - 1 - i).toNat ""⟩ : Edit))) =
      (List.range steps).map (fun i : Nat => a.getD (x - 1 - i).toNat "") := by
  rw [oldsOf, List.filterMap_map]
  have hf : ((fun e : Edit => if e.op = OpType.ins then none else some e.oldLine) ∘
      (fun i : Nat =>
        (⟨OpType.eq, a.getD (x - 1 - i).toNat "", b.getD (y - 1 - i).toNat ""⟩ : Edit))) =
      some ∘ (fun i : Nat => a.getD (x - 1 - i).toNat "") := by
    funext i
    simp
  rw [hf, List.filterMap_eq_map]

theorem newsOf_snake (a b : List String) (x y : Int) (steps : Nat) :
    newsOf ((List.range steps).map (fun i : Nat =>
        (⟨OpType.eq, a.getD (x - 1 - i).toNat "", b.getD (y - 1 - i).toNat ""⟩ : Edit))) =
      (List.range steps).map (fun i : Nat => b.getD (y - 1 - i).toNat "") := by
  rw [newsOf, List.filterMap_map]
  have hf : ((fun e : Edit => if e.op = OpType.del then none else some e.newLine) ∘
      (fun i : Nat =>
        (⟨OpType.eq, a.getD (x - 1 - i).toNat "", b.getD (y - 1 - i).toNat ""⟩ : Edit))) =
      some ∘ (fun i : Nat => b.getD (y - 1 - i).toNat "") := by
    funext i
    simp
  rw [hf, List.filterMap_eq_map]

theorem changesOf_snake (a b : List String) (x y : Int) (steps : Nat) :
    changesOf ((List.range steps).map (fun i : Nat =>
        (⟨OpType.eq, a.getD (x - 1 - i).toNat "", b.getD (y - 1 - i).toNat ""⟩ : Edit))) = 0 := by
  rw [changesOf, List.length_eq_zero]
  rw [List.filter_eq_nil_iff]
  intro e he
  rw [List.mem_map] at he
  obtain ⟨i, _, hi⟩ := he
  rw [← hi]
  simp

/-! ## The backward reconstruction loop -/

theorem backLoop_cons (a b : List String) (v : VArr) (rest : List VArr)
    (x y : Int) (acc : List Edit) :
    backLoop a b (v :: rest) x y acc =
      backLoop a b rest
        ((v (if fwdDown v rest.length (x - y) then x - y + 1 else x - y - 1) : Int))
        ((v (if fwdDown v rest.length (x - y) then x - y + 1 else x - y - 1) : Int) -
          (if fwdDown v rest.length (x - y) then x - y + 1 else x - y - 1))
        (if 0 < (rest.length : Int) then
          (backSnake a b
            ((v (if fwdDown v rest.length (x - y) then x - y + 1 else x - y - 1) : Int))
            ((v (if fwdDown v rest.length (x - y) then x - y + 1 else x - y - 1) : Int) -
              (if fwdDown v rest.length (x - y) then x - y + 1 else x - y - 1))
            x y acc).2.2 ++
            [if fwdDown v rest.length (x - y) then
              (⟨OpType.ins, "",
                b.getD ((backSnake a b
                  ((v (if fwdDown v rest.length (x - y) then x - y + 1 else x - y - 1) : Int))
                  ((v (if fwdDown v rest.length (x - y) then x - y + 1 else x - y - 1) : Int) -
                    (if fwdDown v rest.length (x - y) then x - y + 1 else x - y - 1))
                  x y acc).2.1 - 1).toNat ""⟩ : Edit)
            else
              (⟨OpType.del,
                a.getD ((backSnake a b
                  ((v (if fwdDown v rest.length (x - y) then x - y + 1 else x - y - 1) : Int))
                  ((v (if fwdDown v rest.length (x - y) then x - y + 1 else x - y - 1) : Int) -
                    (if fwdDown v rest.length (x - y) then x - y + 1 else x - y - 1))
                  x y acc).1 - 1).toNat "", ""⟩ : Edit)]
         else
          (backSnake a b
            ((v (if fwdDown v rest.length (x - y) then x - y + 1 else x - y - 1) : Int))
            ((v (if fwdDown v rest.length (x - y) then x - y + 1 else x - y - 1) : Int) -
              (if fwdDown v rest.length (x - y) then x - y + 1 else x - y - 1))
            x y acc).2.2) := by
  rfl

theorem chain_cons_safe (R : Edit → Edit → Prop) (e : Edit) (tail : List Edit)
    (h : List.Chain' R tail) (hhd : ∀ e2, tail.head? = some e2 → R e e2) :
    List.Chain' R (e :: tail) := by
  rw [List.chain'_cons']
  exact ⟨fun b hb => hhd b hb, h⟩

theorem chain_eq_prefix (E tail : List Edit)
    (hE : ∀ e ∈ E, e.op = OpType.eq)
    (h : List.Chain' (fun e1 e2 => ¬(e1.op = OpType.del ∧ e2.op = OpType.ins)) tail) :
    List.Chain' (fun e1 e2 => ¬(e1.op = OpType.del ∧ e2.op = OpType.ins)) (E ++ tail) := by
  induction E with
  | nil => exact h
  | cons e E ih =>
    rw [List.cons_append]
    apply chain_cons_safe
    · exact ih (fun f hf => hE f (by simp [hf]))
    · intro e2 _ hc
      have := hE e (by simp)
      rw [this] at hc
      exact absurd hc.1 (by simp)

theorem head_append_cons (E tail : List Edit) (o : Edit) :
    (E ++ o :: tail).head? = some (E.headD o) := by
  cases E with
  | nil => rfl
  | cons e E => rfl

theorem chain_of_all_eq (E : List Edit) (hE : ∀ e ∈ E, e.op = OpType.eq) :
    List.Chain' (fun e1 e2 => ¬(e1.op = OpType.del ∧ e2.op = OpType.ins)) E := by
  have h := chain_eq_prefix E [] hE List.chain'_nil
  rwa [List.append_nil] at h

/-- One full run of the backward loop from an exact in grid frontier
point: the appended edits reconstruct the consumed prefixes of `a` and
`b` in reverse, contain exactly `d` non equal edits, only sound `eq`
edits, and never place an `ins` directly after a `del` (in emitted,
reversed order). -/
theorem backLoop_run (a b : List String) :
    ∀ (d : Nat) (x y : Int) (acc : List Edit),
      0 ≤ x → x ≤ (a.length : Int) → 0 ≤ y → y ≤ (b.length : Int) →
      -(d : Int) ≤ x - y → x - y ≤ (d : Int) → (2 : Int) ∣ (x - y + d) →
      ((fpoint a b (vIter a b d) d (x - y)).1 : Int) = x →
      (fpoint a b (vIter a b d) d (x - y)).2 = y →
      d ≤ sesD a b →
      ∃ suf,
        backLoop a b (revTrace a b d) x y acc = acc ++ suf ∧
        oldsOf suf = (a.take x.toNat).reverse ∧
        newsOf suf = (b.take y.toNat).reverse ∧
        changesOf suf = d ∧
        (∀ e ∈ suf, e.op = OpType.eq → e.oldLine = e.newLine) ∧
        List.Chain' (fun e1 e2 => ¬(e1.op = OpType.del ∧ e2.op = OpType.ins)) suf ∧
        (∀ e, suf.head? = some e → e.op = OpType.ins →
          fwdDown (vIter a b d) d (x - y) ∧ x = ((vIter a b d) (x - y + 1) : Int) ∧
          1 ≤ y ∧ 1 ≤ d) := by
  intro d
  induction d with
  | zero =>
    intro x y acc h0x hxn h0y hym hkd1 hkd2 hpar hfp1 hfp2 hdD
    have hk0 : x - y = 0 := by push_cast at hkd1 hkd2; omega
    have hxy : x = y := by omega
    have hfw : fwdDown (vIter a b 0) ((0 : Nat) : Int) 0 := Or.inl (by norm_num)
    rw [fpoint, hk0] at hfp1 hfp2
    have hs : stepX (vIter a b 0) ((0 : Nat) : Int) 0 = 0 := by
      rw [stepX, if_pos hfw]
      rfl
    rw [hs] at hfp1 hfp2
    rw [revTrace_zero, backLoop_cons]
    have hlen0 : (([] : List VArr)).length = 0 := rfl
    rw [hlen0]
    have hfw' : fwdDown (vIter a b 0) ((0 : Nat) : Int) (x - y) := by
      rw [hk0]; exact hfw
    rw [if_pos hfw', if_neg (show ¬ ((0 : Int) < ((0 : Nat) : Int)) from by norm_num)]
    have hv1 : vIter a b 0 (x - y + 1) = 0 := rfl
    rw [hv1]
    rw [backSnake_run a b ((0 : Nat) : Int) (((0 : Nat) : Int) - (x - y + 1))
      x.toNat x y acc (by push_cast; omega) (by push_cast; omega)
      (Or.inl (by push_cast; omega))]
    refine ⟨(List.range x.toNat).map (fun i : Nat =>
      (⟨OpType.eq, a.getD (x - 1 - i).toNat "", b.getD (y - 1 - i).toNat ""⟩ : Edit)),
      rfl, ?_, ?_, ?_, ?_, ?_, ?_⟩
    · rw [oldsOf_snake]
      have hmapa : (List.range x.toNat).map (fun i : Nat => a.getD (x - 1 - i).toNat "") =
          (List.range x.toNat).map (fun i : Nat => a.getD (0 + x.toNat - 1 - i) "") := by
        apply List.map_congr_left
        intro i hi
        rw [List.mem_range] at hi
        have hix : (x - 1 - (i : Int)).toNat = 0 + x.toNat - 1 - i := by omega
        rw [hix]
      rw [hmapa, map_range_eq_drop_rev a 0 x.toNat (by omega)]
      simp
    · rw [newsOf_snake]
      have hmapb : (List.range x.toNat).map (fun i : Nat => b.getD (y - 1 - i).toNat "") =
          (List.range x.toNat).map (fun i : Nat => b.getD (0 + y.toNat - 1 - i) "") := by
        apply List.map_congr_left
        intro i hi
        rw [List.mem_range] at hi
        have hix : (y - 1 - (i : Int)).toNat = 0 + y.toNat - 1 - i := by omega
        rw [hix]
      have hxy2 : x.toNat = y.toNat := by omega
      rw [hmapb, hxy2, map_range_eq_drop_rev b 0 y.toNat (by omega)]
      simp
    · rw [changesOf_snake]
    · intro e he hop
      rw [List.mem_map] at he
      obtain ⟨i, hi, hie⟩ := he
      rw [List.mem_range] at hi
      rw [← hie]
      have hsn := snake_elem a b 0 (((0 : Nat) : Int) - 0) (x - 1 - i).toNat
        (by omega) (by push_cast at hfp1 ⊢; omega)
      have hidx : ((((0 : Nat) : Int) - 0) + ((((x - 1 - i).toNat : Nat) : Int) - ((0 : Nat) : Int))).toNat
          = (y - 1 - i).toNat := by push_cast; omega
      rw [hidx] at hsn
      exact hsn.2.2.2
    · apply chain_of_all_eq
      intro e he
      rw [List.mem_map] at he
      obtain ⟨i, _, hie⟩ := he
      rw [← hie]
    · intro e he hop
      have hmem := List.mem_of_mem_head? he
      rw [List.mem_map] at hmem
      obtain ⟨i, _, hie⟩ := hmem
      rw [← hie] at hop
      exact absurd hop (by simp)
  | succ d ih =>
    intro x y acc h0x hxn h0y hym hkd1 hkd2 hpar hfp1 hfp2 hdD
    push_cast at hkd1 hkd2 hpar
    have hnd1 : ∀ f, f < d + 1 → ¬ sesDone a b f := fun f hf => sesD_min a b f (by omega)
    have hnd0 : ∀ f, f < d → ¬ sesDone a b f := fun f hf => sesD_min a b f (by omega)
    have hskipk : ¬ kSkip a b (x - y) := by rw [kSkip]; push_neg; omega
    have hrk : (x - y) ∈ kRange (d + 1) := by
      rw [kRange_mem]
      refine ⟨by omega, by omega, by push_cast; omega⟩
    rw [revTrace_succ, backLoop_cons, revTrace_length]
    by_cases hfw : fwdDown (vIter a b (d + 1)) ((d + 1 : Nat) : Int) (x - y)
    · -- insert branch
      rw [if_pos hfw, if_pos (show (0 : Int) < ((d + 1 : Nat) : Int) from by push_cast; omega)]
      set p : Nat := vIter a b (d + 1) (x - y + 1) with hp
      have hs : stepX (vIter a b (d + 1)) ((d + 1 : Nat) : Int) (x - y) = p := by
        rw [stepX, if_pos hfw]
      rw [fpoint, hs] at hfp1 hfp2
      have hge := (snake_ge a b p ((p : Int) - (x - y))).1
      have hpx : (p : Int) ≤ x := by omega
      have hskipP : ¬ kSkip a b (x - y + 1) := by
        rw [kSkip]
        push_neg
        constructor
        · by_contra hgt
          push_neg at hgt
          have hyx : y = 0 ∧ x = (a.length : Int) := by omega
          have hp0 : p = 0 := by
            rw [hp]
            exact vIter_unwritten a b (d + 1) (x - y + 1)
              (Or.inl (by rw [kSkip]; left; omega))
          by_cases hn : a.length = 0
          · have hsound := fpoint_sound a b (d + 1) (x - y) hnd1 hskipk hrk
            rw [fpoint, hs] at hsound
            have hsum := ReachX.le_sum hsound.2
            omega
          · rw [hp0, snake] at hfp1
            rw [dif_neg (by push_cast; omega)] at hfp1
            push_cast at hfp1
            omega
        · omega
      have hrP : (x - y + 1) ∈ kRange d := by
        rw [kRange_mem]
        rcases hfw with hkd | ⟨hne2, _⟩
        · push_cast at hkd
          refine ⟨by omega, by omega, by omega⟩
        · push_cast at hne2
          refine ⟨by omega, by omega, by omega⟩
      have hrPm := (kRange_mem d (x - y + 1)).mp hrP
      have hwr : p = (fpoint a b (vIter a b d) d (x - y + 1)).1 := by
        rw [hp]
        exact vIter_write a b d (x - y + 1) hskipP hrP
      have hsound0 := fpoint_sound a b d (x - y + 1) hnd0 hskipP hrP
      have hs1 := hsound0.1
      have hdiag := fpoint_diag a b (vIter a b d) d (x - y + 1)
      have h0py : 0 ≤ (p : Int) - (x - y + 1) := by
        rw [hwr]
        omega
      have hyP : (p : Int) - (x - y + 1) ≤ (b.length : Int) := by omega
      rw [if_pos hfw]
      rw [backSnake_run a b (p : Int) ((p : Int) - (x - y + 1)) (x - (p : Int)).toNat x y acc
        (by omega) (by omega) (Or.inl (by omega))]
      dsimp only
      obtain ⟨suf', hrun, holds, hnews, hchg, heqc, hchain, hhead⟩ :=
        ih (p : Int) ((p : Int) - (x - y + 1))
          ((acc ++ (List.range (x - (p : Int)).toNat).map (fun i : Nat =>
            (⟨OpType.eq, a.getD (x - 1 - i).toNat "", b.getD (y - 1 - i).toNat ""⟩ : Edit))) ++
            [(⟨OpType.ins, "", b.getD (y - ((x - (p : Int)).toNat : Int) - 1).toNat ""⟩ : Edit)])
          (by omega) (by omega) h0py hyP (by omega) (by omega) (by omega)
          (by
            have harg : (p : Int) - ((p : Int) - (x - y + 1)) = x - y + 1 := by ring
            rw [harg, ← hwr])
          (by
            have harg : (p : Int) - ((p : Int) - (x - y + 1)) = x - y + 1 := by ring
            rw [harg, hdiag, ← hwr])
          (by omega)
      refine ⟨(List.range (x - (p : Int)).toNat).map (fun i : Nat =>
          (⟨OpType.eq, a.getD (x - 1 - i).toNat "", b.getD (y - 1 - i).toNat ""⟩ : Edit)) ++
          ([(⟨OpType.ins, "", b.getD (y - ((x - (p : Int)).toNat : Int) - 1).toNat ""⟩ : Edit)] ++
            suf'), ?_, ?_, ?_, ?_, ?_, ?_, ?_⟩
      · rw [hrun, List.append_assoc, List.append_assoc]
      · rw [oldsOf_append, oldsOf_append, oldsOf_snake]
        have hie0 : oldsOf [(⟨OpType.ins, "",
            b.getD (y - ((x - (p : Int)).toNat : Int) - 1).toNat ""⟩ : Edit)] = [] := rfl
        rw [hie0, holds, List.nil_append]
        have hmapa : (List.range (x - (p : Int)).toNat).map
            (fun i : Nat => a.getD (x - 1 - i).toNat "") =
            (List.range (x - (p : Int)).toNat).map
            (fun i : Nat => a.getD (p + (x - (p : Int)).toNat - 1 - i) "") := by
          apply List.map_congr_left
          intro i hi
          rw [List.mem_range] at hi
          have hix : (x - 1 - (i : Int)).toNat = p + (x - (p : Int)).toNat - 1 - i := by omega
          rw [hix]
        rw [hmapa, map_range_eq_drop_rev a p (x - (p : Int)).toNat (by omega)]
        have hxt : p + (x - (p : Int)).toNat = x.toNat := by omega
        have hpt : ((p : Int)).toNat = p := by omega
        rw [hxt, hpt, ← take_rev_split a p x.toNat (by omega)]
      · rw [newsOf_append, newsOf_append, newsOf_snake]
        have hie1 : newsOf [(⟨OpType.ins, "",
            b.getD (y - ((x - (p : Int)).toNat : Int) - 1).toNat ""⟩ : Edit)] =
            [b.getD (y - ((x - (p : Int)).toNat : Int) - 1).toNat ""] := rfl
        rw [hie1, hnews]
        have hq : (y - ((x - (p : Int)).toNat : Int) - 1).toNat =
            ((p : Int) - (x - y + 1)).toNat := by omega
        rw [hq]
        have hmapb : (List.range (x - (p : Int)).toNat).map
            (fun i : Nat => b.getD (y - 1 - i).toNat "") =
            (List.range (x - (p : Int)).toNat).map
            (fun i : Nat => b.getD (((p : Int) - (x - y + 1)).toNat + 1 +
              (x - (p : Int)).toNat - 1 - i) "") := by
          apply List.map_congr_left
          intro i hi
          rw [List.mem_range] at hi
          have hix : (y - 1 - (i : Int)).toNat =
              ((p : Int) - (x - y + 1)).toNat + 1 + (x - (p : Int)).toNat - 1 - i := by omega
          rw [hix]
        rw [hmapb, map_range_eq_drop_rev b (((p : Int) - (x - y + 1)).toNat + 1)
          (x - (p : Int)).toNat (by omega)]
        have hyt : ((p : Int) - (x - y + 1)).toNat + 1 + (x - (p : Int)).toNat = y.toNat := by
          omega
        rw [hyt, List.singleton_append]
        rw [← take_succ_rev b (((p : Int) - (x - y + 1)).toNat) (by omega)]
        rw [← take_rev_split b (((p : Int) - (x - y + 1)).toNat + 1) y.toNat (by omega)]
      · rw [changesOf_append, changesOf_append, changesOf_snake, hchg]
        have hie2 : changesOf [(⟨OpType.ins, "",
            b.getD (y - ((x - (p : Int)).toNat : Int) - 1).toNat ""⟩ : Edit)] = 1 := rfl
        rw [hie2]
        omega
      · intro e he hop
        rw [List.mem_append, List.mem_append] at he
        rcases he with he | he | he
        · rw [List.mem_map] at he
          obtain ⟨i, hi, hie⟩ := he
          rw [List.mem_range] at hi
          rw [← hie]
          have hsn := snake_elem a b p ((p : Int) - (x - y)) (x - 1 - i).toNat
            (by omega) (by omega)
          have hidx : (((p : Int) - (x - y)) +
              ((((x - 1 - i).toNat : Nat) : Int) - (p : Int))).toNat
              = (y - 1 - i).toNat := by omega
          rw [hidx] at hsn
          exact hsn.2.2.2
        · rw [List.mem_singleton] at he
          rw [he] at hop
          simp at hop
        · exact heqc e he hop
      · rw [List.singleton_append]
        apply chain_eq_prefix
        · intro e he
          rw [List.mem_map] at he
          obtain ⟨i, _, hie⟩ := he
          rw [← hie]
        · apply chain_cons_safe _ _ _ hchain
          intro e2 _ hc
          have hc1 := hc.1
          simp at hc1
      · intro e hhd hop
        rw [List.singleton_append, head_append_cons] at hhd
        have hee : e = (((List.range (x - (p : Int)).toNat).map (fun i : Nat =>
            (⟨OpType.eq, a.getD (x - 1 - i).toNat "", b.getD (y - 1 - i).toNat ""⟩ : Edit))).headD
            (⟨OpType.ins, "", b.getD (y - ((x - (p : Int)).toNat : Int) - 1).toNat ""⟩ : Edit)) := by
          exact (Option.some.injEq _ _).mp hhd.symm
        by_cases hsz : (x - (p : Int)).toNat = 0
        · rw [hsz] at hee
          simp only [List.range_zero, List.map_nil, List.headD_nil] at hee
          refine ⟨hfw, ?_, by omega, by omega⟩
          have hxp : x = (p : Int) := by omega
          rw [hxp, hp]
        · obtain ⟨j, hj⟩ : ∃ j, (x - (p : Int)).toNat = j + 1 :=
            ⟨(x - (p : Int)).toNat - 1, by omega⟩
          rw [hj, List.range_succ_eq_map, List.map_cons, List.headD_cons] at hee
          rw [hee] at hop
          simp at hop
    · -- delete branch
      rw [if_neg hfw, if_pos (show (0 : Int) < ((d + 1 : Nat) : Int) from by push_cast; omega)]
      have hfw2 := hfw
      rw [fwdDown] at hfw2
      push_neg at hfw2
      obtain ⟨hne, himp⟩ := hfw2
      set p : Nat := vIter a b (d + 1) (x - y - 1) with hp
      have hs : stepX (vIter a b (d + 1)) ((d + 1 : Nat) : Int) (x - y) = p + 1 := by
        rw [stepX, if_neg hfw]
      rw [fpoint, hs] at hfp1 hfp2
      have hge := (snake_ge a b (p + 1) (((p + 1 : Nat) : Int) - (x - y))).1
      have hpx : (p : Int) + 1 ≤ x := by omega
      have hnec : x - y ≠ -(((d + 1 : Nat)) : Int) := hne
      have hskipP : ¬ kSkip a b (x - y - 1) := by
        rw [kSkip]
        push_neg
        constructor <;> omega
      have hrP : (x - y - 1) ∈ kRange d := by
        rw [kRange_mem]
        push_cast at hnec
        refine ⟨by omega, by omega, by omega⟩
      have hrPm := (kRange_mem d (x - y - 1)).mp hrP
      have hwr : p = (fpoint a b (vIter a b d) d (x - y - 1)).1 := by
        rw [hp]
        exact vIter_write a b d (x - y - 1) hskipP hrP
      have hsound0 := fpoint_sound a b d (x - y - 1) hnd0 hskipP hrP
      have hs1 := hsound0.1
      have hdiag := fpoint_diag a b (vIter a b d) d (x - y - 1)
      have h0py : 0 ≤ (p : Int) - (x - y - 1) := by
        rw [hwr]
        omega
      have hyP : (p : Int) - (x - y - 1) ≤ (b.length : Int) := by omega
      rw [if_neg hfw]
      rw [backSnake_run a b (p : Int) ((p : Int) - (x - y - 1)) (x - (p : Int) - 1).toNat x y acc
        (by omega) (by omega) (Or.inr (by omega))]
      dsimp only
      obtain ⟨suf', hrun, holds, hnews, hchg, heqc, hchain, hhead⟩ :=
        ih (p : Int) ((p : Int) - (x - y - 1))
          ((acc ++ (List.range (x - (p : Int) - 1).toNat).map (fun i : Nat =>
            (⟨OpType.eq, a.getD (x - 1 - i).toNat "", b.getD (y - 1 - i).toNat ""⟩ : Edit))) ++
            [(⟨OpType.del, a.getD (x - ((x - (p : Int) - 1).toNat : Int) - 1).toNat "", ""⟩ : Edit)])
          (by omega) (by omega) h0py hyP (by omega) (by omega) (by omega)
          (by
            have harg : (p : Int) - ((p : Int) - (x - y - 1)) = x - y - 1 := by ring
            rw [harg, ← hwr])
          (by
            have harg : (p : Int) - ((p : Int) - (x - y - 1)) = x - y - 1 := by ring
            rw [harg, hdiag, ← hwr])
          (by omega)
      refine ⟨(List.range (x - (p : Int) - 1).toNat).map (fun i : Nat =>
          (⟨OpType.eq, a.getD (x - 1 - i).toNat "", b.getD (y - 1 - i).toNat ""⟩ : Edit)) ++
          ([(⟨OpType.del, a.getD (x - ((x - (p : Int) - 1).toNat : Int) - 1).toNat "", ""⟩ : Edit)] ++
            suf'), ?_, ?_, ?_, ?_, ?_, ?_, ?_⟩
      · rw [hrun, List.append_assoc, List.append_assoc]
      · rw [oldsOf_append, oldsOf_append, oldsOf_snake]
        have hie0 : oldsOf [(⟨OpType.del,
            a.getD (x - ((x - (p : Int) - 1).toNat : Int) - 1).toNat "", ""⟩ : Edit)] =
            [a.getD (x - ((x - (p : Int) - 1).toNat : Int) - 1).toNat ""] := rfl
        rw [hie0, holds]
        have hqa : (x - ((x - (p : Int) - 1).toNat : Int) - 1).toNat = p := by omega
        have hpt : ((p : Int)).toNat = p := by omega
        rw [hqa, hpt]
        have hmapa : (List.range (x - (p : Int) - 1).toNat).map
            (fun i : Nat => a.getD (x - 1 - i).toNat "") =
            (List.range (x - (p : Int) - 1).toNat).map
            (fun i : Nat => a.getD ((p + 1) + (x - (p : Int) - 1).toNat - 1 - i) "") := by
          apply List.map_congr_left
          intro i hi
          rw [List.mem_range] at hi
          have hix : (x - 1 - (i : Int)).toNat = (p + 1) + (x - (p : Int) - 1).toNat - 1 - i := by
            omega
          rw [hix]
        rw [hmapa, map_range_eq_drop_rev a (p + 1) (x - (p : Int) - 1).toNat (by omega)]
        have hxt : (p + 1) + (x - (p : Int) - 1).toNat = x.toNat := by omega
        rw [hxt, List.singleton_append]
        rw [← take_succ_rev a p (by omega)]
        rw [← take_rev_split a (p + 1) x.toNat (by omega)]
      · rw [newsOf_append, newsOf_append, newsOf_snake]
        have hie1 : newsOf [(⟨OpType.del,
            a.getD (x - ((x - (p : Int) - 1).toNat : Int) - 1).toNat "", ""⟩ : Edit)] = [] := rfl
        rw [hie1, hnews, List.nil_append]
        have hmapb : (List.range (x - (p : Int) - 1).toNat).map
            (fun i : Nat => b.getD (y - 1 - i).toNat "") =
            (List.range (x - (p : Int) - 1).toNat).map
            (fun i : Nat => b.getD (((p : Int) - (x - y - 1)).toNat +
              (x - (p : Int) - 1).toNat - 1 - i) "") := by
          apply List.map_congr_left
          intro i hi
          rw [List.mem_range] at hi
          have hix : (y - 1 - (i : Int)).toNat =
              ((p : Int) - (x - y - 1)).toNat + (x - (p : Int) - 1).toNat - 1 - i := by omega
          rw [hix]
        rw [hmapb, map_range_eq_drop_rev b (((p : Int) - (x - y - 1)).toNat)
          (x - (p : Int) - 1).toNat (by omega)]
        have hyt : ((p : Int) - (x - y - 1)).toNat + (x - (p : Int) - 1).toNat = y.toNat := by
          omega
        rw [hyt]
        rw [← take_rev_split b (((p : Int) - (x - y - 1)).toNat) y.toNat (by omega)]
      · rw [changesOf_append, changesOf_append, changesOf_snake, hchg]
        have hie2 : changesOf [(⟨OpType.del,
            a.getD (x - ((x - (p : Int) - 1).toNat : Int) - 1).toNat "", ""⟩ : Edit)] = 1 := rfl
        rw [hie2]
        omega
      · intro e he hop
        rw [List.mem_append, List.mem_append] at he
        rcases he with he | he | he
        · rw [List.mem_map] at he
          obtain ⟨i, hi, hie⟩ := he
          rw [List.mem_range] at hi
          rw [← hie]
          have hsn := snake_elem a b (p + 1) (((p + 1 : Nat) : Int) - (x - y)) (x - 1 - i).toNat
            (by push_cast; omega) (by omega)
          have hidx : ((((p + 1 : Nat) : Int) - (x - y)) +
              ((((x - 1 - i).toNat : Nat) : Int) - ((p + 1 : Nat) : Int))).toNat
              = (y - 1 - i).toNat := by push_cast; omega
          rw [hidx] at hsn
          exact hsn.2.2.2
        · rw [List.mem_singleton] at he
          rw [he] at hop
          simp at hop
        · exact heqc e he hop
      · rw [List.singleton_append]
        apply chain_eq_prefix
        · intro e he
          rw [List.mem_map] at he
          obtain ⟨i, _, hie⟩ := he
          rw [← hie]
        · apply chain_cons_safe _ _ _ hchain
          intro e2 hhd2 hc
          -- a del followed directly by an ins is impossible
          have hp2 := hhead e2 hhd2 hc.2
          have harg : (p : Int) - ((p : Int) - (x - y - 1)) = x - y - 1 := by ring
          rw [harg] at hp2
          have harg2 : x - y - 1 + 1 = x - y := by ring
          rw [harg2] at hp2
          obtain ⟨hfw3, hxv, hy1, hd1⟩ := hp2
          by_cases hkD : x - y = ((d + 1 : Nat) : Int)
          · rcases hfw3 with h3 | ⟨h3ne, _⟩
            · push_cast at h3 hkD
              omega
            · push_cast at h3ne hkD
              omega
          · have hvv := himp hkD
            by_cases hsk1 : kSkip a b (x - y + 1)
            · rw [kSkip] at hsk1
              rcases hsk1 with h | h <;> omega
            · have hr1 : (x - y + 1) ∈ kRange d := by
                rw [kRange_mem]
                push_cast at hnec hkD
                refine ⟨by omega, by omega, by omega⟩
              have hw1 : vIter a b (d + 1) (x - y + 1) =
                  (fpoint a b (vIter a b d) d (x - y + 1)).1 :=
                vIter_write a b d (x - y + 1) hsk1 hr1
              have hfp1q : (fpoint a b (vIter a b d) ((d : Nat) : Int) (x - y + 1)).1 =
                  (snake a b (stepX (vIter a b d) ((d : Nat) : Int) (x - y + 1))
                    (((stepX (vIter a b d) ((d : Nat) : Int) (x - y + 1) : Nat) : Int) -
                      (x - y + 1))).1 := by
                rw [fpoint]
              have hge1 := (snake_ge a b (stepX (vIter a b d) ((d : Nat) : Int) (x - y + 1))
                (((stepX (vIter a b d) ((d : Nat) : Int) (x - y + 1) : Nat) : Int) -
                  (x - y + 1))).1
              by_cases hfw4 : fwdDown (vIter a b d) ((d : Nat) : Int) (x - y + 1)
              · have hstep3 : stepX (vIter a b d) ((d : Nat) : Int) (x - y + 1) =
                    vIter a b d (x - y + 1 + 1) := by
                  rw [stepX, if_pos hfw4]
                rcases hfw4 with h3 | ⟨h3ne, h3lt⟩
                · push_cast at h3 hnec
                  omega
                · rw [show (x - y + 1 - 1 : Int) = x - y from by ring] at h3lt
                  omega
              · have hstep3 : stepX (vIter a b d) ((d : Nat) : Int) (x - y + 1) =
                    vIter a b d (x - y + 1 - 1) + 1 := by
                  rw [stepX, if_neg hfw4]
                rw [show (x - y + 1 - 1 : Int) = x - y from by ring] at hstep3
                omega
      · intro e hhd hop
        rw [List.singleton_append, head_append_cons] at hhd
        have hee : e = (((List.range (x - (p : Int) - 1).toNat).map (fun i : Nat =>
            (⟨OpType.eq, a.getD (x - 1 - i).toNat "", b.getD (y - 1 - i).toNat ""⟩ : Edit))).headD
            (⟨OpType.del, a.getD (x - ((x - (p : Int) - 1).toNat : Int) - 1).toNat "", ""⟩ : Edit)) := by
          exact (Option.some.injEq _ _).mp hhd.symm
        by_cases hsz : (x - (p : Int) - 1).toNat = 0
        · rw [hsz] at hee
          simp only [List.range_zero, List.map_nil, List.headD_nil] at hee
          rw [hee] at hop
          simp at hop
        · obtain ⟨j, hj⟩ : ∃ j, (x - (p : Int) - 1).toNat = j + 1 :=
            ⟨(x - (p : Int) - 1).toNat - 1, by omega⟩
          rw [hj, List.range_succ_eq_map, List.map_cons, List.headD_cons] at hee
          rw [hee] at hop
          simp at hop

/-! ## Any valid script reaches the corner -/

theorem Reach.mono_old {a b : List String} (t : List String) :
    ∀ {x y d : Nat}, Reach a b x y d → Reach (a ++ t) b x y d := by
  intro x y d h
  induction h with
  | init => exact Reach.init
  | diag h hx hy he ih =>
    refine Reach.diag ih (by rw [List.length_append]; omega) hy ?_
    rw [List.getD_append _ _ _ _ hx]
    exact he
  | down h hy ih => exact Reach.down ih hy
  | right h hx ih => exact Reach.right ih (by rw [List.length_append]; omega)

theorem Reach.mono_new {a b : List String} (t : List String) :
    ∀ {x y d : Nat}, Reach a b x y d → Reach a (b ++ t) x y d := by
  intro x y d h
  induction h with
  | init => exact Reach.init
  | diag h hx hy he ih =>
    refine Reach.diag ih hx (by rw [List.length_append]; omega) ?_
    rw [List.getD_append _ _ _ _ hy]
    exact he
  | down h hy ih => exact Reach.down ih (by rw [List.length_append]; omega)
  | right h hx ih => exact Reach.right ih hx

/-- A script whose `eq` edits carry matching lines describes a lattice
path: the corner of the grid of its two projections is reachable with
its number of non `eq` edits. -/
theorem reach_script : ∀ (es : List Edit),
    (∀ e ∈ es, e.op = OpType.eq → e.oldLine = e.newLine) →
    Reach (oldsOf es) (newsOf es) (oldsOf es).length (newsOf es).length (changesOf es) := by
  intro es
  induction es using List.reverseRecOn with
  | nil => intro _; exact Reach.init
  | append_singleton es e ih =>
    intro h3
    have ih' := ih (fun f hf hq => h3 f (by rw [List.mem_append]; left; exact hf) hq)
    obtain ⟨op, ol, nl⟩ := e
    cases op with
    | ins =>
      rw [oldsOf_append, newsOf_append, changesOf_append]
      have e1 : oldsOf [(⟨OpType.ins, ol, nl⟩ : Edit)] = [] := rfl
      have e2 : newsOf [(⟨OpType.ins, ol, nl⟩ : Edit)] = [nl] := rfl
      have e3 : changesOf [(⟨OpType.ins, ol, nl⟩ : Edit)] = 1 := rfl
      rw [e1, e2, e3, List.append_nil]
      have hlift := Reach.mono_new [nl] ih'
      have hd := Reach.down hlift (by rw [List.length_append]; simp)
      have hlen : (newsOf es ++ [nl]).length = (newsOf es).length + 1 := by
        rw [List.length_append]
        rfl
      rw [hlen]
      exact hd
    | del =>
      rw [oldsOf_append, newsOf_append, changesOf_append]
      have e1 : oldsOf [(⟨OpType.del, ol, nl⟩ : Edit)] = [ol] := rfl
      have e2 : newsOf [(⟨OpType.del, ol, nl⟩ : Edit)] = [] := rfl
      have e3 : changesOf [(⟨OpType.del, ol, nl⟩ : Edit)] = 1 := rfl
      rw [e1, e2, e3, List.append_nil]
      have hlift := Reach.mono_old [ol] ih'
      have hd := Reach.right hlift (by rw [List.length_append]; simp)
      have hlen : (oldsOf es ++ [ol]).length = (oldsOf es).length + 1 := by
        rw [List.length_append]
        rfl
      rw [hlen]
      exact hd
    | eq =>
      rw [oldsOf_append, newsOf_append, changesOf_append]
      have e1 : oldsOf [(⟨OpType.eq, ol, nl⟩ : Edit)] = [ol] := rfl
      have e2 : newsOf [(⟨OpType.eq, ol, nl⟩ : Edit)] = [nl] := rfl
      have e3 : changesOf [(⟨OpType.eq, ol, nl⟩ : Edit)] = 0 := rfl
      rw [e1, e2, e3, Nat.add_zero]
      have hq : ol = nl := h3 ⟨OpType.eq, ol, nl⟩
        (by rw [List.mem_append]; right; exact List.mem_singleton_self _) rfl
      have hlift := Reach.mono_new [nl] (Reach.mono_old [ol] ih')
      have hgo : (oldsOf es ++ [ol]).getD (oldsOf es).length "" = ol := by
        rw [List.getD_append_right _ _ _ _ (le_refl _)]
        simp
      have hgn : (newsOf es ++ [nl]).getD (newsOf es).length "" = nl := by
        rw [List.getD_append_right _ _ _ _ (le_refl _)]
        simp
      have hd := Reach.diag hlift (by rw [List.length_append]; simp)
        (by rw [List.length_append]; simp) (by rw [hgo, hgn]; exact hq)
      have hlen1 : (oldsOf es ++ [ol]).length = (oldsOf es).length + 1 := by
        rw [List.length_append]
        rfl
      have hlen2 : (newsOf es ++ [nl]).length = (newsOf es).length + 1 := by
        rw [List.length_append]
        rfl
      rw [hlen1, hlen2]
      exact hd

/-! ## The full characterization of Lines -/

theorem Lines_spec (a b : List String) :
    oldsOf (Lines a b) = a ∧ newsOf (Lines a b) = b ∧
    changesOf (Lines a b) = sesD a b ∧
    (∀ e ∈ Lines a b, e.op = OpType.eq → e.oldLine = e.newLine) ∧
    List.Chain' (fun e1 e2 => ¬(e1.op = OpType.ins ∧ e2.op = OpType.del)) (Lines a b) := by
  by_cases h0 : a.length + b.length = 0
  · rw [Lines, if_pos h0]
    have ha : a = [] := List.length_eq_zero.mp (by omega)
    have hb : b = [] := List.length_eq_zero.mp (by omega)
    have hD : sesD a b = 0 := by
      have := sesD_le a b
      omega
    refine ⟨by rw [ha]; rfl, by rw [hb]; rfl, by rw [hD]; rfl, ?_, ?_⟩
    · intro e he
      simp at he
    · exact List.chain'_nil
  · obtain ⟨k, hkr, hks, hkh⟩ := sesD_done a b
    have hex := sesD_exact a b k hks hkr hkh
    have hkval := hex.2.2
    rw [hkval] at hex
    have hex1 := hex.1
    have hex2 := hex.2.1
    have hreach := sesD_reach a b
    have hdl := hreach.diag_le
    have hparr := hreach.parity
    obtain ⟨suf, hrun, holds, hnews, hchg, heqc, hchain, hhead⟩ :=
      backLoop_run a b (sesD a b) (a.length : Int) (b.length : Int) []
        (by omega) (by omega) (by omega) (by omega)
        (by omega) (by omega) (by omega)
        (by exact_mod_cast hex1) hex2 (le_refl _)
    have hlines : Lines a b = suf.reverse := by
      rw [Lines, if_neg h0]
      congr 1
      rw [shortestEdit_eq a b (sesD a b) (sesD_done a b) (sesD_min a b) (sesD_le a b) h0]
      have hrt : ((List.range (sesD a b + 1)).map (vIter a b)).reverse
          = revTrace a b (sesD a b) := rfl
      rw [hrt, hrun, List.nil_append]
    refine ⟨?_, ?_, ?_, ?_, ?_⟩
    · rw [hlines, oldsOf_reverse, holds, List.reverse_reverse]
      have ht : ((a.length : Int)).toNat = a.length := by omega
      rw [ht, List.take_length]
    · rw [hlines, newsOf_reverse, hnews, List.reverse_reverse]
      have ht : ((b.length : Int)).toNat = b.length := by omega
      rw [ht, List.take_length]
    · rw [hlines, changesOf_reverse, hchg]
    · intro e he hop
      rw [hlines, List.mem_reverse] at he
      exact heqc e he hop
    · rw [hlines, List.chain'_reverse]
      apply List.Chain'.imp ?_ hchain
      intro e1 e2 h12 hc
      exact h12 ⟨hc.2, hc.1⟩

/-! ## Positions touched by a script -/

theorem script_pos_old (es : List Edit) (a : List String) (h : oldsOf es = a)
    (i : Nat) (hi : i < es.length) (hop : (es.getD i default).op ≠ OpType.ins) :
    (es.getD i default).oldLine = a.getD (oldsOf (es.take i)).length "" := by
  have hsplit := List.take_append_drop i es
  have hdrop : es.drop i = es.getD i default :: es.drop (i + 1) := by
    rw [List.getD_eq_getElem es default hi]
    exact List.drop_eq_getElem_cons hi
  have h2 : oldsOf es = oldsOf (es.take i) ++ oldsOf (es.drop i) := by
    rw [← oldsOf_append, hsplit]
  rw [hdrop] at h2
  have h3 : oldsOf (es.getD i default :: es.drop (i + 1)) =
      (es.getD i default).oldLine :: oldsOf (es.drop (i + 1)) := by
    rw [oldsOf, oldsOf]
    exact List.filterMap_cons_some (by rw [if_neg hop])
  rw [h3] at h2
  rw [← h, h2, List.getD_append_right _ _ _ _ (le_refl _)]
  simp

theorem script_pos_new (es : List Edit) (b : List String) (h : newsOf es = b)
    (i : Nat) (hi : i < es.length) (hop : (es.getD i default).op ≠ OpType.del) :
    (es.getD i default).newLine = b.getD (newsOf (es.take i)).length "" := by
  have hsplit := List.take_append_drop i es
  have hdrop : es.drop i = es.getD i default :: es.drop (i + 1) := by
    rw [List.getD_eq_getElem es default hi]
    exact List.drop_eq_getElem_cons hi
  have h2 : newsOf es = newsOf (es.take i) ++ newsOf (es.drop i) := by
    rw [← newsOf_append, hsplit]
  rw [hdrop] at h2
  have h3 : newsOf (es.getD i default :: es.drop (i + 1)) =
      (es.getD i default).newLine :: newsOf (es.drop (i + 1)) := by
    rw [newsOf, newsOf]
    exact List.filterMap_cons_some (by rw [if_neg hop])
  rw [h3] at h2
  rw [← h, h2, List.getD_append_right _ _ _ _ (le_refl _)]
  simp

/-! ## Claims C1, C2, C3, C9 -/

/-- C1: for every pair of line sequences `a` and `b`, in the edit list
returned by `Lines a b` the subsequence of `OldLine` values of the
delete and equal edits, in order, equals `a`, and the subsequence of
`NewLine` values of the insert and equal edits, in order, equals `b`. -/
theorem C1_reconstruction (a b : List String) :
    oldsOf (Lines a b) = a ∧ newsOf (Lines a b) = b :=
  ⟨(Lines_spec a b).1, (Lines_spec a b).2.1⟩

/-- C2: the number of non equal edits of `Lines a b` is minimal: no
edit script reconstructing `a` on the old side and `b` on the new side
(with honest equal edits) has fewer inserts plus deletes. -/
theorem C2_minimal_changes (a b : List String) (es : List Edit)
    (h1 : oldsOf es = a) (h2 : newsOf es = b)
    (h3 : ∀ e ∈ es, e.op = OpType.eq → e.oldLine = e.newLine) :
    changesOf (Lines a b) ≤ changesOf es := by
  subst h1
  subst h2
  rw [(Lines_spec (oldsOf es) (newsOf es)).2.2.1]
  exact sesD_least (oldsOf es) (newsOf es) (reach_script es h3)

/-- C2 witness: on `a = ["x"]`, `b = ["y"]` the script
`[del x, ins y]` is valid and `Lines` uses no more changes. -/
theorem C2_minimal_changes_witness :
    oldsOf [(⟨OpType.del, "x", ""⟩ : Edit), (⟨OpType.ins, "", "y"⟩ : Edit)] = ["x"] ∧
    newsOf [(⟨OpType.del, "x", ""⟩ : Edit), (⟨OpType.ins, "", "y"⟩ : Edit)] = ["y"] ∧
    changesOf (Lines ["x"] ["y"]) ≤
      changesOf [(⟨OpType.del, "x", ""⟩ : Edit), (⟨OpType.ins, "", "y"⟩ : Edit)] :=
  ⟨rfl, rfl, C2_minimal_changes ["x"] ["y"]
    [(⟨OpType.del, "x", ""⟩ : Edit), (⟨OpType.ins, "", "y"⟩ : Edit)] rfl rfl (by decide)⟩

/-- C3: the edit list of `Lines a b` is ordered left to right: the edit
at index `i`, when it touches the old sequence (`del` or `eq`), touches
exactly old position `#(old side edits before i)` — these positions
increase by one along the list, so all edits touching old position `j`
precede all edits touching `j + 1` — and likewise for the new side; and
at a shared logical point the delete precedes the insert: an `ins` edit
is never immediately followed by a `del` edit. -/
theorem C3_edit_order (a b : List String) :
    (∀ i, i < (Lines a b).length →
      ((((Lines a b).getD i default).op ≠ OpType.ins →
        ((Lines a b).getD i default).oldLine =
          a.getD (oldsOf ((Lines a b).take i)).length "") ∧
       (((Lines a b).getD i default).op ≠ OpType.del →
        ((Lines a b).getD i default).newLine =
          b.getD (newsOf ((Lines a b).take i)).length ""))) ∧
    List.Chain' (fun e1 e2 => ¬(e1.op = OpType.ins ∧ e2.op = OpType.del)) (Lines a b) := by
  constructor
  · intro i hi
    exact ⟨fun hop => script_pos_old _ a (Lines_spec a b).1 i hi hop,
           fun hop => script_pos_new _ b (Lines_spec a b).2.1 i hi hop⟩
  · exact (Lines_spec a b).2.2.2.2

/-- C3 witness: on `a = ["x"]`, `b = ["y"]` (`Lines` yields
`[del x, ins y]`) the delete at index 0 touches old position 0 and the
insert at index 1 touches new position 0. -/
theorem C3_edit_order_witness :
    0 < (Lines ["x"] ["y"]).length ∧
    ((Lines ["x"] ["y"]).getD 0 default).oldLine =
      ["x"].getD (oldsOf ((Lines ["x"] ["y"]).take 0)).length "" ∧
    ((Lines ["x"] ["y"]).getD 1 default).newLine =
      ["y"].getD (newsOf ((Lines ["x"] ["y"]).take 1)).length "" := by
  have hL : Lines ["x"] ["y"] =
      [(⟨OpType.del, "x", ""⟩ : Edit), (⟨OpType.ins, "", "y"⟩ : Edit)] := by
    simp [Lines, shortestEdit, sesLoop, kLoop, kRange, kSkip, kHit, fpoint, stepX, fwdDown,
      vUpd, vInit, snake, backLoop, backSnake, List.range_succ]
  refine ⟨by rw [hL]; decide, ?_, ?_⟩
  · exact ((C3_edit_order ["x"] ["y"]).1 0 (by rw [hL]; decide)).1 (by rw [hL]; decide)
  · exact ((C3_edit_order ["x"] ["y"]).1 1 (by rw [hL]; decide)).2 (by rw [hL]; decide)

/-- C9: every equal edit produced by `Lines a b` carries the same line
on both sides: the backward snake only emits equal edits where the
corresponding elements of `a` and `b` compare equal. -/
theorem C9_eq_lines_match (a b : List String) :
    ∀ e ∈ Lines a b, e.op = OpType.eq → e.oldLine = e.newLine :=
  (Lines_spec a b).2.2.2.1

/-- C9 witness: on `a = b = ["x"]` the single produced edit is an equal
edit with matching sides. -/
theorem C9_eq_lines_match_witness :
    (⟨OpType.eq, "x", "x"⟩ : Edit) ∈ Lines ["x"] ["x"] ∧
    (⟨OpType.eq, "x", "x"⟩ : Edit).oldLine = (⟨OpType.eq, "x", "x"⟩ : Edit).newLine := by
  have hL : Lines ["x"] ["x"] = [(⟨OpType.eq, "x", "x"⟩ : Edit)] := by
    simp [Lines, shortestEdit, sesLoop, kLoop, kRange, kSkip, kHit, fpoint, stepX, fwdDown,
      vUpd, vInit, snake, backLoop, backSnake, List.range_succ]
  exact ⟨by rw [hL]; decide,
    C9_eq_lines_match ["x"] ["x"] (⟨OpType.eq, "x", "x"⟩ : Edit) (by rw [hL]; decide) rfl⟩

end Diff
